import Mathlib

/-!
Verification of the SPFlow node-graph core (spflow/base/structure/nodes/node.py
and the parametric leaf adapters) against its specification.

The Python node graph is a shared-subgraph DAG deduplicated by object identity.
We embed it as an arena: a list of node records, nodes referenced by their index
(object identity becomes index equality).  Python dictionaries keyed by nodes
become association lists keyed by indices, deques become lists in pop order,
and numpy row vectors become lists of rationals.  A NaN cell of a data matrix
is modelled as Option.none.  The scipy density functions are external
collaborators of the repository and enter as function parameters.
-/

namespace SPFlow

/-- Concrete Python classes of nodes: ISumNode, IProductNode, the generic
ILeafNode base class, and concrete leaf subclasses (Gaussian, Bernoulli, ...)
identified by a numeric tag. -/
inductive NType where
  | iSum
  | iProd
  | iLeaf
  | leafClass (k : Nat)
deriving DecidableEq, Repr

/-- issubclass(t, ILeafNode) / isinstance(n, ILeafNode) on a concrete class. -/
def NType.isLeafType : NType → Bool
  | .iLeaf => true
  | .leafClass _ => true
  | _ => false

/-- One arena node: its concrete class, the indices of its children
(INode.children) and its scope (INode.scope). -/
structure GNode where
  ntype : NType
  children : List Nat
  scope : List Int
deriving DecidableEq, Repr

/-- A node graph: the arena of all nodes.  A node is an index into the arena. -/
structure Graph where
  nodes : List GNode
deriving DecidableEq, Repr

def Graph.size (g : Graph) : Nat := g.nodes.length

def Graph.nodeAt (g : Graph) (n : Nat) : GNode :=
  g.nodes.getD n ⟨.iLeaf, [], []⟩

def Graph.typeOf (g : Graph) (n : Nat) : NType := (g.nodeAt n).ntype

def Graph.childrenOf (g : Graph) (n : Nat) : List Nat := (g.nodeAt n).children

def Graph.scopeOf (g : Graph) (n : Nat) : List Int := (g.nodeAt n).scope

/-- Well-formedness of the arena, automatic for graphs built from Python
objects: child references point into the arena, and leaf nodes have no
children (ILeafNode.__init__ always stores children = []). -/
def Graph.WFb (g : Graph) : Bool :=
  g.nodes.all fun nd =>
    nd.children.all (fun c => decide (c < g.nodes.length)) &&
    (!nd.ntype.isLeafType || nd.children.isEmpty)

/-- The child edge relation of the graph: b is a child of a. -/
def ChildEdge (g : Graph) (a b : Nat) : Prop := b ∈ g.childrenOf a

/-- A node is reachable from the root through child links. -/
def Reachable (g : Graph) (root n : Nat) : Prop :=
  Relation.ReflTransGen (ChildEdge g) root n

/-- Children as traversed by bfs and by the topological sorts: both guard the
child loop with `not isinstance(node, ILeafNode)`. -/
def Graph.tChildren (g : Graph) (n : Nat) : List Nat :=
  if (g.typeOf n).isLeafType then [] else g.childrenOf n

/-- Inner loop of bfs: `for c in node.children: if c not in seen: seen.add(c);
queue.append(c)`. -/
def enqueueChildren : List Nat → List Nat → List Nat → List Nat × List Nat
  | [], seen, queue => (seen, queue)
  | c :: rest, seen, queue =>
    if c ∈ seen then enqueueChildren rest seen queue
    else enqueueChildren rest (seen ++ [c]) (queue ++ [c])

/-- The while-loop of bfs (node.py).  The queue is kept in pop order.  The
fuel argument only bounds the recursion; it is chosen large enough that it is
never exhausted on a well-formed graph. -/
def bfsLoop (g : Graph) : Nat → List Nat → List Nat → List Nat → List Nat
  | 0, _, _, acc => acc
  | _ + 1, [], _, acc => acc
  | fuel + 1, n :: qs, seen, acc =>
    let (seen', q') := enqueueChildren (g.tChildren n) seen qs
    bfsLoop g fuel q' seen' (acc ++ [n])

/-- get_nodes_by_type(node) with the default ntype = INode: bfs collecting
every unique node in visit order. -/
def getNodesByType (g : Graph) (root : Nat) : List Nat :=
  bfsLoop g (g.size + 1) [root] [root] []

/-- The reverse adjacency built by get_topological_order: parents[c] receives
one occurrence of n for every occurrence of c in n.children, iterating n over
the discovered nodes in order. -/
def parentsOf (g : Graph) (nodes : List Nat) (c : Nat) : List Nat :=
  nodes.flatMap fun m => List.replicate ((g.tChildren m).count c) m

/-- in_degree after the construction loop: the number of child edges leaving
n (0 for leaves, whose child loop is skipped). -/
def initIndeg (g : Graph) (n : Nat) : Int := ((g.tChildren n).length : Int)

/-- Inner loop of both topological sorts: for m in parents[n], decrement
in_degree[m] and append m to the pending list when it reaches zero. -/
def processParents : (Nat → Int) → List Nat → List Nat → (Nat → Int) × List Nat
  | indeg, [], s => (indeg, s)
  | indeg, m :: rest, s =>
    let d := indeg m - 1
    processParents (fun x => if x = m then d else indeg x) rest
      (if d = 0 then s ++ [m] else s)

/-- The while-loop of get_topological_order (Kahn).  S is the deque in pop
order (appendleft enqueues at the far end).  Fuel only bounds the recursion. -/
def kahnLoop (g : Graph) (nodes : List Nat) :
    Nat → List Nat → List Nat → (Nat → Int) → List Nat
  | 0, _, l, _ => l
  | _ + 1, [], l, _ => l
  | fuel + 1, n :: s', l, indeg =>
    let p := processParents indeg (parentsOf g nodes n) s'
    kahnLoop g nodes fuel p.2 (l ++ [n]) p.1

inductive EvalErr where
  | cyclic
  | noHandler
  | keyErr
deriving DecidableEq, Repr

/-- get_topological_order(node): Kahn over the discovered nodes; the final
assert (len(L) == len(nodes), "Graph is not DAG") becomes the error case. -/
def getTopologicalOrder (g : Graph) (root : Nat) : Except EvalErr (List Nat) :=
  let nodes := getNodesByType g root
  let fuel := (nodes.map fun n => (g.tChildren n).length).sum + nodes.length + 1
  let l := kahnLoop g nodes fuel
    (nodes.filter fun u => initIndeg g u == 0) [] (initIndeg g)
  if l.length = nodes.length then .ok l else .error .cyclic

/-- A bottom-up evaluation callable.  It receives the node and, when invoked
for a non-leaf, the list of children results; a leaf invocation passes none
(the Python lambda is called without a children argument). -/
def BUHandler (R : Type) : Type := Nat → Option (List R) → R

/-- Handler resolution of eval_spn_bottom_up: try the concrete type first
(together with its issubclass(·, ILeafNode) flag); on a missed lookup fall
back to the generic ILeafNode entry when the node is a leaf, else raise
AssertionError ("No lambda function associated with type"). -/
def bottomUpResolve {H : Type} (ef : NType → Option H) (t : NType) :
    Except EvalErr (H × Bool) :=
  match ef t with
  | some f => .ok (f, t.isLeafType)
  | none =>
    match ef NType.iLeaf with
    | some lf => if t.isLeafType then .ok (lf, true) else .error .noHandler
    | none => .error .noHandler

/-- One iteration of the main loop of eval_spn_bottom_up, acting on the pair
(all_results, trace of nodes whose handler was invoked).  A missing child
result is Python's KeyError on all_results[ci]. -/
def evalBUStep {R : Type} (g : Graph) (ef : NType → Option (BUHandler R))
    (st : List (Nat × R) × List Nat) (n : Nat) :
    Except EvalErr (List (Nat × R) × List Nat) :=
  match bottomUpResolve ef (g.typeOf n) with
  | .error e => .error e
  | .ok (f, isLf) =>
    if isLf then .ok (st.1 ++ [(n, f n none)], st.2 ++ [n])
    else
      match (g.childrenOf n).mapM (fun c => List.lookup c st.1) with
      | none => .error .keyErr
      | some rs => .ok (st.1 ++ [(n, f n (some rs))], st.2 ++ [n])

/-- eval_spn_bottom_up(node, eval_functions): evaluate the nodes in
topological order, store each result keyed by node identity, and return the
stored result of the root together with the final all_results map and the
invocation trace.  (The trailing cleanup of node_type_eval_func_dict in the
Python code has no observable effect and is omitted.) -/
def evalSpnBottomUp {R : Type} (g : Graph) (root : Nat)
    (ef : NType → Option (BUHandler R)) :
    Except EvalErr (R × List (Nat × R) × List Nat) :=
  match getTopologicalOrder g root with
  | .error e => .error e
  | .ok order =>
    match order.foldlM (evalBUStep g ef) ([], []) with
    | .error e => .error e
    | .ok (m, tr) =>
      match List.lookup root m with
      | some r => .ok (r, m, tr)
      | none => .error .keyErr

/-- One round of the layer loop of get_topological_order_layers: run the
parents loop for every node of the previous layer, accumulating the next
layer. -/
def processLayer (g : Graph) (nodes : List Nat) :
    (Nat → Int) → List Nat → List Nat → (Nat → Int) × List Nat
  | indeg, [], acc => (indeg, acc)
  | indeg, n :: rest, acc =>
    let p := processParents indeg (parentsOf g nodes n) acc
    processLayer g nodes p.1 rest p.2

/-- The while True loop of get_topological_order_layers, breaking when a
round produces an empty layer. -/
def layersLoop (g : Graph) (nodes : List Nat) :
    Nat → (Nat → Int) → List (List Nat) → List (List Nat)
  | 0, _, l => l
  | fuel + 1, indeg, l =>
    let p := processLayer g nodes indeg (l.getLastD []) []
    if p.2.isEmpty then l else layersLoop g nodes fuel p.1 (l ++ [p.2])

/-- get_topological_order_layers(node): the first layer is the in-degree-zero
nodes; the final assert (added_nodes == len(nodes)) becomes the error case. -/
def getTopologicalOrderLayers (g : Graph) (root : Nat) :
    Except EvalErr (List (List Nat)) :=
  let nodes := getNodesByType g root
  let fuel := (nodes.map fun n => (g.tChildren n).length).sum + 1
  let l := layersLoop g nodes fuel (initIndeg g)
    [nodes.filter fun u => initIndeg g u == 0]
  if (l.map List.length).sum = nodes.length then .ok l else .error .cyclic

/-- A top-down evaluation callable: receives the node and its accumulated
message list, and returns None or a mapping child-node -> message (a Python
dict in insertion order). -/
def TDHandler (M : Type) : Type := Nat → List M → Option (List (Nat × M))

/-- Handler resolution of eval_spn_top_down: a leaf is routed to the generic
ILeafNode entry whenever one is registered, before the concrete type is even
consulted; otherwise eval_functions[type(n)] is looked up and a miss is
Python's KeyError. -/
def tdResolve {H : Type} (ef : NType → Option H) (t : NType) :
    Except EvalErr H :=
  match ef NType.iLeaf with
  | some lf =>
    if t.isLeafType then .ok lf
    else
      match ef t with
      | some f => .ok f
      | none => .error .keyErr
  | none =>
    match ef t with
    | some f => .ok f
    | none => .error .keyErr

/-- all_results[child].append(param), creating the entry as [] first when the
child key is absent (new keys go to the end, dict insertion order). -/
def appendMsg {M : Type} : List (Nat × List M) → Nat → M → List (Nat × List M)
  | [], c, p => [(c, [p])]
  | (k, v) :: rest, c, p =>
    if k = c then (k, v ++ [p]) :: rest else (k, v) :: appendMsg rest c p

/-- Processing of a single node inside the layer loop of eval_spn_top_down. -/
def evalTDNode {M : Type} (g : Graph) (ef : NType → Option (TDHandler M))
    (res : List (Nat × List M)) (n : Nat) :
    Except EvalErr (List (Nat × List M)) :=
  match tdResolve ef (g.typeOf n) with
  | .error e => .error e
  | .ok f =>
    match List.lookup n res with
    | none => .error .keyErr
    | some params =>
      match f n params with
      | none => .ok res
      | some outs =>
        if (g.typeOf n).isLeafType then .ok res
        else .ok (outs.foldl (fun acc cp => appendMsg acc cp.1 cp.2) res)

/-- eval_spn_top_down(root, eval_functions, parent_result): seed the root
with [parent_result], walk the reversed layered topological order pushing the
handler outputs down to the children, and return all_results[root] (together
with the final all_results map, which models the caller-visible mutated
dictionary). -/
def evalSpnTopDown {M : Type} (g : Graph) (root : Nat)
    (ef : NType → Option (TDHandler M)) (parentResult : M) :
    Except EvalErr (List M × List (Nat × List M)) :=
  match getTopologicalOrderLayers g root with
  | .error e => .error e
  | .ok layers =>
    match layers.reverse.foldlM
        (fun res layer => layer.foldlM (evalTDNode g ef) res)
        [(root, [parentResult])] with
    | .error e => .error e
    | .ok res =>
      match List.lookup root res with
      | some l => .ok (l, res)
      | none => .error .keyErr

/-!
Structural node trees for INode.equals and the constructors.  Object identity
plays no role in equals, so nodes are modelled as trees here (a mutually
inductive list type is used so that the recursion stays structural).
-/

mutual

/-- A node as a Python object tree: IProductNode, ISumNode (with its weights
vector) or a concrete leaf class (tag k); ILeafNode sets children = []. -/
inductive NodeT where
  | prod (children : NodeTList) (scope : List Int)
  | sum (children : NodeTList) (scope : List Int) (weights : List ℚ)
  | leaf (cls : Nat) (scope : List Int)

inductive NodeTList where
  | nil
  | cons (head : NodeT) (tail : NodeTList)

end

def NodeTList.length : NodeTList → Nat
  | .nil => 0
  | .cons _ t => 1 + t.length

/-- sum(len(child) for child in children): INode.__len__ always returns 1. -/
def sumLenChildren (children : NodeTList) : Nat := children.length

def NodeT.scopeT : NodeT → List Int
  | .prod _ sc => sc
  | .sum _ sc _ => sc
  | .leaf _ sc => sc

def NodeT.childCount : NodeT → Nat
  | .prod cs _ => cs.length
  | .sum cs _ _ => cs.length
  | .leaf _ _ => 0

def NodeT.weightsOf : NodeT → List ℚ
  | .sum _ _ w => w
  | _ => []

/-- The single closeness test of np.allclose with rtol = 1.0e-5 and the
default atol = 1.0e-8: abs(a - b) <= atol + rtol * abs(b). -/
def closeQ (a b : ℚ) : Bool :=
  decide (|a - b| ≤ 1 / 100000000 + |b| / 100000)

/-- np.allclose(w, w2, rtol=1.0e-5) on 1-d arrays, including its broadcasting
behaviour: arrays of different lengths broadcast only when one length is 1,
otherwise numpy raises (modelled as none). -/
def allcloseQ (w w2 : List ℚ) : Option Bool :=
  if w.length = w2.length then
    some ((w.zip w2).all fun p => closeQ p.1 p.2)
  else if w.length = 1 then
    some (w2.all fun b => closeQ (w.headD 0) b)
  else if w2.length = 1 then
    some (w.all fun a => closeQ a (w2.headD 0))
  else none

mutual

/-- INode.equals / ISumNode.equals.  The result is none when the comparison
raises (np.allclose on non-broadcastable weight shapes).  Conjunctions
short-circuit exactly as Python's and / all(map(...)) do, and the children
comparison truncates to the shorter list because map over two iterables stops
at the shorter one. -/
def equalsT : NodeT → NodeT → Option Bool
  | .prod cs sc, .prod cs' sc' =>
    if sc = sc' then equalsChildren cs cs' else some false
  | .sum cs sc w, .sum cs' sc' w' =>
    (if sc = sc' then equalsChildren cs cs' else some false).bind fun b =>
      if b then
        (allcloseQ w w').map fun c => c && decide (w.length = w'.length)
      else some false
  | .leaf k sc, .leaf k' sc' =>
    some (decide (k = k') && decide (sc = sc'))
  | _, _ => some false

/-- all(map(lambda x, y: x.equals(y), children, children2)): lazily evaluated
and truncated to the shorter list. -/
def equalsChildren : NodeTList → NodeTList → Option Bool
  | .nil, _ => some true
  | .cons _ _, .nil => some true
  | .cons x xs, .cons y ys =>
    (equalsT x y).bind fun b => if b then equalsChildren xs ys else some false

end

/-- The elementwise closeness of two equal-length weight vectors. -/
def closePairs (w w2 : List ℚ) : Bool :=
  (w.zip w2).all fun p => closeQ p.1 p.2

mutual

/-- Structural equality as the specification words it: same concrete type,
equal scopes, children pairwise structurally equal over the common prefix
(the zip truncated to the shorter children list), and for sum nodes weight
vectors of equal length that are elementwise close. -/
def specEquals : NodeT → NodeT → Bool
  | .prod cs sc, .prod cs' sc' => decide (sc = sc') && specEqChildren cs cs'
  | .sum cs sc w, .sum cs' sc' w' =>
    decide (sc = sc') && specEqChildren cs cs' &&
      decide (w.length = w'.length) && closePairs w w'
  | .leaf k sc, .leaf k' sc' => decide (k = k') && decide (sc = sc')
  | _, _ => false

def specEqChildren : NodeTList → NodeTList → Bool
  | .nil, _ => true
  | .cons _ _, .nil => true
  | .cons x xs, .cons y ys => specEquals x y && specEqChildren xs ys

end

/-- IProductNode.__init__(children, scope): stores the fields; no scope check
of any kind is performed. -/
def mkIProductNode (children : NodeTList) (scope : List Int) : NodeT :=
  .prod children scope

/-- The weights stored by ISumNode.__init__: a supplied vector is stored
as-is (unvalidated); when omitted, np.random.rand(sum(len(c) for c in
children)) + 1e-08 is drawn and normalized.  The random draws enter as the
list rand (each in the interval of numpy's rand). -/
def initSumWeights (children : NodeTList) (weights : Option (List ℚ))
    (rand : List ℚ) : List ℚ :=
  match weights with
  | some w => w
  | none =>
    let w := (rand.take (sumLenChildren children)).map fun r =>
      r + 1 / 100000000
    w.map fun x => x / w.sum

/-- ISumNode.__init__(children, scope, weights). -/
def mkISumNode (children : NodeTList) (scope : List Int)
    (weights : Option (List ℚ)) (rand : List ℚ) : NodeT :=
  .sum children scope (initSumWeights children weights rand)

/-!
Leaf adapters.  A Gaussian node stores its scope (validated to size 1 by the
constructor, so a single column index) and its parameters; scipy's norm pdf
and logpdf are collaborators of the repository and enter as function
parameters taking (x, loc, scale).  A data matrix is a list of rows whose
cells are finite rationals or the missing marker NaN (none).
-/

structure GaussianM where
  scope : Nat
  mean : ℚ
  stdev : ℚ

/-- numpy fancy assignment probs[mask-false-positions stay, true positions
take the next value of vals]: base is the preinitialized column, mask marks
the rows that receive computed values, vals are those values in row order. -/
def maskAssign : List ℚ → List Bool → List ℚ → List ℚ
  | [], _, _ => []
  | b :: bs, [], vs => b :: maskAssign bs [] vs
  | b :: bs, m :: ms, vs =>
    if m then
      match vs with
      | v :: vs' => v :: maskAssign bs ms vs'
      | [] => b :: maskAssign bs ms []
    else b :: maskAssign bs ms vs

/-- The scope-restricted column data[:, node.scope] of the data matrix. -/
def scopeColumn (node : GaussianM) (data : List (List (Option ℚ))) :
    List (Option ℚ) :=
  data.map fun row => row.getD node.scope none

/-- node_likelihood(Gaussian, data): probs = ones; the non-NaN rows receive
get_scipy_object(node).pdf(x=data[~marg_ids], loc=mean, scale=stdev). -/
def node_likelihood (pdf : ℚ → ℚ → ℚ → ℚ) (node : GaussianM)
    (data : List (List (Option ℚ))) : List ℚ :=
  let col := scopeColumn node data
  let vals := (col.filterMap id).map fun x => pdf x node.mean node.stdev
  maskAssign (List.replicate data.length 1) (col.map Option.isSome) vals

/-- node_log_likelihood(Gaussian, data): probs = zeros; the non-NaN rows
receive logpdf. -/
def node_log_likelihood (logpdf : ℚ → ℚ → ℚ → ℚ) (node : GaussianM)
    (data : List (List (Option ℚ))) : List ℚ :=
  let col := scopeColumn node data
  let vals := (col.filterMap id).map fun x => logpdf x node.mean node.stdev
  maskAssign (List.replicate data.length 0) (col.map Option.isSome) vals

/-!
The Hypergeometric leaf (hypergeometric.py).  The stored parameters can be
nulled after construction (the tests do exactly that), hence Option fields.
-/

structure HypergeometricM where
  nPop : Option Int
  mSucc : Option Int
  nDraw : Option Int

/-- get_scipy_object_parameters(Hypergeometric): raises
InvalidParametersError (the parameter name is the error payload) when a
stored parameter is None, and otherwise returns the deliberately switched
mapping for scipy.stats.hypergeom. -/
def hyperScipyParameters (node : HypergeometricM) :
    Except String (List (String × Int)) :=
  match node.nPop with
  | none => .error "N"
  | some nv =>
    match node.mSucc with
    | none => .error "M"
    | some mv =>
      match node.nDraw with
      | none => .error "n"
      | some dv => .ok [("M", nv), ("n", mv), ("N", dv)]

/-!
likelihood / log_likelihood of rat_spn.py: likelihood(rat_spn, data) is
literally np.exp(log_likelihood(rat_spn, data)), where the inner
log_likelihood dispatches into the (external) per-network inference module.
np.exp is elementwise.
-/

/-- log_likelihood(rat_spn, data) = log_likelihood(rat_spn.network_type,
rat_spn.output_nodes[0], data); the dispatched implementation is a
collaborator and enters as the parameter impl. -/
def ratLogLikelihood (impl : Nat → List (List (Option ℚ)) → List ℚ)
    (outputNode : Nat) (data : List (List (Option ℚ))) : List ℚ :=
  impl outputNode data

/-- likelihood(rat_spn, data) = np.exp(log_likelihood(rat_spn, data)); the
exponential enters as the parameter expQ. -/
def ratLikelihood (expQ : ℚ → ℚ) (impl : Nat → List (List (Option ℚ)) → List ℚ)
    (outputNode : Nat) (data : List (List (Option ℚ))) : List ℚ :=
  (ratLogLikelihood impl outputNode data).map expQ

/-- The in-degree still owed to m after the nodes of l have been removed from
the graph: its child-edge occurrences leading to nodes not yet in l. -/
def remDeg (g : Graph) (l : List Nat) (m : Nat) : Int :=
  (((g.tChildren m).filter fun c => decide (c ∉ l)).length : Int)

/-- The loop invariant of bfs: seen is exactly the already-output nodes plus
the queue, everything seen is reachable and in range, and children of output
nodes have been seen. -/
structure BfsInv (g : Graph) (root : Nat) (queue seen acc : List Nat) :
    Prop where
  nd : (acc ++ queue).Nodup
  seenNd : seen.Nodup
  seenIff : ∀ x, x ∈ seen ↔ (x ∈ acc ∨ x ∈ queue)
  reach : ∀ x ∈ seen, Reachable g root x
  closure : ∀ a ∈ acc, ∀ c ∈ g.tChildren a, c ∈ seen
  bound : ∀ x ∈ seen, x < g.size

/-- The loop invariant of get_topological_order: indeg agrees with the
remaining degrees, S holds exactly the pending zero-degree nodes, and L is an
output respecting children-before-parents. -/
structure KahnInv (g : Graph) (nodes s l : List Nat) (indeg : Nat → Int) :
    Prop where
  nd : (l ++ s).Nodup
  sub : ∀ x ∈ l ++ s, x ∈ nodes
  deg : ∀ m ∈ nodes, indeg m = remDeg g l m
  sIff : ∀ m, m ∈ s ↔ (m ∈ nodes ∧ m ∉ l ∧ remDeg g l m = 0)
  order : ∀ m ∈ l, ∀ c ∈ g.tChildren m, c ∈ l ∧ l.indexOf c < l.indexOf m

/-!
Concrete fixtures used to instantiate the theorems: a diamond-shaped SPN
(a sum over two products sharing one leaf), a two-node cycle, handler maps,
and graphs violating the scope invariants.
-/

/-- A diamond: node 0 is a sum of products 1 and 2, which share leaf 3. -/
def gDiamond : Graph :=
  ⟨[⟨.iSum, [1, 2], [0, 1]⟩, ⟨.iProd, [3], [0, 1]⟩,
    ⟨.iProd, [3], [0, 1]⟩, ⟨.leafClass 0, [], [0]⟩]⟩

/-- A cyclic graph: two product nodes that are children of each other. -/
def gCyc : Graph := ⟨[⟨.iProd, [1], []⟩, ⟨.iProd, [0], []⟩]⟩

/-- Bottom-up handlers for the diamond: sums and products add their children
results, and leaves are served by the generic ILeafNode entry (leafClass has
no specific handler, exercising the fallback). -/
def efDiamond : NType → Option (BUHandler ℚ) := fun t =>
  match t with
  | .iSum => some fun _ rs => (rs.getD []).sum
  | .iProd => some fun _ rs => (rs.getD []).sum
  | .iLeaf => some fun _ _ => 1 / 2
  | .leafClass _ => none

/-- A product node (0) whose two leaf children have the same scope [0]:
the product scope-disjointness invariant is violated. -/
def gBadProd : Graph :=
  ⟨[⟨.iProd, [1, 2], [0]⟩, ⟨.leafClass 0, [], [0]⟩,
    ⟨.leafClass 0, [], [0]⟩]⟩

/-- A sum node (0) with scope [0, 1] whose children scopes [0] and [1] differ
from it: the sum scope-equality invariant is violated. -/
def gBadSum : Graph :=
  ⟨[⟨.iSum, [1, 2], [0, 1]⟩, ⟨.leafClass 0, [], [0]⟩,
    ⟨.leafClass 0, [], [1]⟩]⟩

/-- A two-node chain for the top-down evaluator. -/
def gChain : Graph := ⟨[⟨.iProd, [1], [0]⟩, ⟨.leafClass 0, [], [0]⟩]⟩

/-- Top-down handlers for the chain: the product pushes the value 0 to its
child 1, the leaf handler returns nothing. -/
def efChain : NType → Option (TDHandler ℚ) := fun t =>
  match t with
  | .iProd => some fun _ _ => some [(1, 0)]
  | .iLeaf => some fun _ _ => none
  | _ => none

/-- A handler map registering both a generic ILeafNode handler and a
handler for the concrete leaf class 0, to compare the two dispatchers. -/
def efBoth : NType → Option Nat := fun t =>
  match t with
  | .iLeaf => some 1
  | .leafClass 0 => some 2
  | _ => none

/-! ### General list lemmas -/

theorem nodup_lt_length {l : List Nat} {k : Nat} (hnd : l.Nodup)
    (hb : ∀ x ∈ l, x < k) : l.length ≤ k := by
  have hcard := List.toFinset_card_of_nodup hnd
  have hsub : l.toFinset ⊆ Finset.range k := by
    intro x hx
    rw [List.mem_toFinset] at hx
    exact Finset.mem_range.mpr (hb x hx)
  have := Finset.card_le_card hsub
  rw [hcard, Finset.card_range] at this
  exact this

theorem lookup_append_single_isSome {R : Type} (m : List (Nat × R))
    (x n : Nat) (r : R) :
    (List.lookup x (m ++ [(n, r)])).isSome ↔
      (List.lookup x m).isSome ∨ x = n := by
  induction m with
  | nil =>
    by_cases hx : x = n
    · simp [List.lookup, hx]
    · have hbeq : (x == n) = false := by simpa using hx
      simp [List.lookup, hbeq]
      exact hx
  | cons h t ih =>
    by_cases hk : x = h.1
    · simp [List.lookup, hk]
    · have hbeq : (x == h.1) = false := by simpa using hk
      simpa [List.lookup, hbeq] using ih

theorem mapM_isSome_of_forall {α R : Type} (f : α → Option R) :
    ∀ l : List α, (∀ c ∈ l, (f c).isSome) → ∃ rs, l.mapM f = some rs := by
  intro l
  induction l with
  | nil => intro _; exact ⟨[], rfl⟩
  | cons a t ih =>
    intro h
    obtain ⟨b, hb⟩ := Option.isSome_iff_exists.mp (h a (by simp))
    obtain ⟨rs, hrs⟩ := ih fun c hc => h c (by simp [hc])
    refine ⟨b :: rs, ?_⟩
    rw [List.mapM_cons, hb, hrs]
    rfl

/-! ### Properties of bfs / get_nodes_by_type -/

theorem wf_child_lt {g : Graph} (hwf : g.WFb = true) {n c : Nat}
    (hc : c ∈ g.childrenOf n) : c < g.size := by
  by_cases hn : n < g.nodes.length
  · have hmem : g.nodeAt n ∈ g.nodes := by
      unfold Graph.nodeAt
      rw [List.getD_eq_getElem _ _ hn]
      exact List.getElem_mem hn
    have := (List.all_eq_true.mp hwf) _ hmem
    have h1 := List.all_eq_true.mp (Bool.and_elim_left this) _ hc
    simpa using h1
  · unfold Graph.childrenOf Graph.nodeAt at hc
    rw [List.getD_eq_default] at hc
    · simp at hc
    · omega

theorem wf_leaf_children {g : Graph} (hwf : g.WFb = true) {n : Nat}
    (hleaf : (g.typeOf n).isLeafType = true) : g.childrenOf n = [] := by
  by_cases hn : n < g.nodes.length
  · have hmem : g.nodeAt n ∈ g.nodes := by
      unfold Graph.nodeAt
      rw [List.getD_eq_getElem _ _ hn]
      exact List.getElem_mem hn
    have := (List.all_eq_true.mp hwf) _ hmem
    have h2 := Bool.and_elim_right this
    unfold Graph.typeOf at hleaf
    rw [hleaf] at h2
    simpa using h2
  · unfold Graph.childrenOf Graph.nodeAt
    rw [List.getD_eq_default]
    omega

/-- tChildren is the child list up to the leaf guard, which is vacuous on
well-formed graphs. -/
theorem tChildren_eq {g : Graph} (hwf : g.WFb = true) (n : Nat) :
    g.tChildren n = g.childrenOf n := by
  unfold Graph.tChildren
  by_cases hleaf : (g.typeOf n).isLeafType = true
  · rw [if_pos hleaf, wf_leaf_children hwf hleaf]
  · rw [if_neg hleaf]

theorem enqueueChildren_spec (cs : List Nat) : ∀ seen queue : List Nat,
    ∃ new, enqueueChildren cs seen queue = (seen ++ new, queue ++ new) ∧
      new.Nodup ∧ (∀ x ∈ new, x ∈ cs ∧ x ∉ seen) ∧
      (∀ c ∈ cs, c ∈ seen ∨ c ∈ new) := by
  induction cs with
  | nil =>
    intro seen queue
    exact ⟨[], by simp [enqueueChildren]⟩
  | cons c rest ih =>
    intro seen queue
    by_cases hc : c ∈ seen
    · obtain ⟨new, heq, hnd, hmem, hcov⟩ := ih seen queue
      refine ⟨new, ?_, hnd, ?_, ?_⟩
      · rw [enqueueChildren, if_pos hc]; exact heq
      · intro x hx
        exact ⟨List.mem_cons_of_mem _ (hmem x hx).1, (hmem x hx).2⟩
      · intro c' hc'
        rcases List.mem_cons.mp hc' with h | h
        · subst h; exact Or.inl hc
        · exact hcov c' h
    · obtain ⟨new, heq, hnd, hmem, hcov⟩ := ih (seen ++ [c]) (queue ++ [c])
      have hcnew : c ∉ new := fun h => (hmem c h).2 (by simp)
      refine ⟨c :: new, ?_, ?_, ?_, ?_⟩
      · rw [enqueueChildren, if_neg hc, heq]
        simp
      · exact List.nodup_cons.mpr ⟨hcnew, hnd⟩
      · intro x hx
        rcases List.mem_cons.mp hx with h | h
        · subst h; exact ⟨by simp, hc⟩
        · refine ⟨List.mem_cons_of_mem _ (hmem x h).1, fun hs => ?_⟩
          exact (hmem x h).2 (by simp [hs])
      · intro c' hc'
        rcases List.mem_cons.mp hc' with h | h
        · subst h; exact Or.inr (by simp)
        · rcases hcov c' h with h2 | h2
          · rcases List.mem_append.mp h2 with h3 | h3
            · exact Or.inl h3
            · simp at h3; subst h3; exact Or.inr (by simp)
          · exact Or.inr (List.mem_cons_of_mem _ h2)

theorem childEdge_of_tChildren {g : Graph} {n c : Nat}
    (h : c ∈ g.tChildren n) : ChildEdge g n c := by
  unfold Graph.tChildren at h
  by_cases hleaf : (g.typeOf n).isLeafType = true
  · rw [if_pos hleaf] at h; simp at h
  · rw [if_neg hleaf] at h; exact h

theorem bfsLoop_spec (g : Graph) (root : Nat) (hwf : g.WFb = true) :
    ∀ fuel queue seen acc, BfsInv g root queue seen acc →
    queue.length + (g.size - seen.length) < fuel →
    (bfsLoop g fuel queue seen acc).Nodup ∧
      (∀ x ∈ seen, x ∈ bfsLoop g fuel queue seen acc) ∧
      (∀ a ∈ bfsLoop g fuel queue seen acc, ∀ c ∈ g.tChildren a,
        c ∈ bfsLoop g fuel queue seen acc) ∧
      (∀ x ∈ bfsLoop g fuel queue seen acc,
        x < g.size ∧ Reachable g root x) := by
  intro fuel
  induction fuel with
  | zero => intro queue seen acc _ hm; omega
  | succ f ih =>
    intro queue seen acc inv hm
    cases queue with
    | nil =>
      have hres : bfsLoop g (f + 1) [] seen acc = acc := rfl
      rw [hres]
      have hacc : ∀ x ∈ seen, x ∈ acc := by
        intro x hx
        rcases (inv.seenIff x).mp hx with h | h
        · exact h
        · simp at h
      refine ⟨by simpa using inv.nd, hacc, ?_, ?_⟩
      · intro a ha c hc
        exact hacc c (inv.closure a ha c hc)
      · intro x hx
        have hseen : x ∈ seen := (inv.seenIff x).mpr (Or.inl hx)
        exact ⟨inv.bound x hseen, inv.reach x hseen⟩
    | cons n qs =>
      obtain ⟨new, heq, hndnew, hmemnew, hcov⟩ :=
        enqueueChildren_spec (g.tChildren n) seen qs
      have hres : bfsLoop g (f + 1) (n :: qs) seen acc =
          bfsLoop g f (qs ++ new) (seen ++ new) (acc ++ [n]) := by
        simp only [bfsLoop, heq]
      have hnseen : n ∈ seen := (inv.seenIff n).mpr (Or.inr (by simp))
      have hdisj : ∀ x ∈ acc ++ n :: qs, x ∉ new := by
        intro x hx hxn
        have : x ∈ seen := by
          rcases List.mem_append.mp hx with h | h
          · exact (inv.seenIff x).mpr (Or.inl h)
          · exact (inv.seenIff x).mpr (Or.inr h)
        exact (hmemnew x hxn).2 this
      have hdisjseen : ∀ x ∈ seen, x ∉ new := fun x hx hxn =>
        (hmemnew x hxn).2 hx
      have inv' : BfsInv g root (qs ++ new) (seen ++ new) (acc ++ [n]) := by
        refine ⟨?_, ?_, ?_, ?_, ?_, ?_⟩
        · have h1 : ((acc ++ n :: qs) ++ new).Nodup :=
            List.Nodup.append inv.nd hndnew hdisj
          have h2 : (acc ++ n :: qs) ++ new = (acc ++ [n]) ++ (qs ++ new) := by
            simp
          rwa [h2] at h1
        · exact List.Nodup.append inv.seenNd hndnew hdisjseen
        · intro x
          constructor
          · intro hx
            rcases List.mem_append.mp hx with h | h
            · rcases (inv.seenIff x).mp h with h2 | h2
              · exact Or.inl (List.mem_append.mpr (Or.inl h2))
              · rcases List.mem_cons.mp h2 with h3 | h3
                · subst h3; exact Or.inl (by simp)
                · exact Or.inr (List.mem_append.mpr (Or.inl h3))
            · exact Or.inr (List.mem_append.mpr (Or.inr h))
          · intro hx
            rcases hx with h | h
            · rcases List.mem_append.mp h with h2 | h2
              · exact List.mem_append.mpr
                  (Or.inl ((inv.seenIff x).mpr (Or.inl h2)))
              · simp at h2; subst h2
                exact List.mem_append.mpr (Or.inl hnseen)
            · rcases List.mem_append.mp h with h2 | h2
              · exact List.mem_append.mpr
                  (Or.inl ((inv.seenIff x).mpr (Or.inr (by simp [h2]))))
              · exact List.mem_append.mpr (Or.inr h2)
        · intro x hx
          rcases List.mem_append.mp hx with h | h
          · exact inv.reach x h
          · have hxc : x ∈ g.tChildren n := (hmemnew x h).1
            exact Relation.ReflTransGen.tail (inv.reach n hnseen)
              (childEdge_of_tChildren hxc)
        · intro a ha c hc
          rcases List.mem_append.mp ha with h | h
          · exact List.mem_append.mpr (Or.inl (inv.closure a h c hc))
          · simp at h; subst h
            rcases hcov c hc with h2 | h2
            · exact List.mem_append.mpr (Or.inl h2)
            · exact List.mem_append.mpr (Or.inr h2)
        · intro x hx
          rcases List.mem_append.mp hx with h | h
          · exact inv.bound x h
          · have hxc : x ∈ g.tChildren n := (hmemnew x h).1
            exact wf_child_lt hwf (childEdge_of_tChildren hxc)
      have hlen : (seen ++ new).length ≤ g.size := by
        refine nodup_lt_length inv'.seenNd ?_
        exact inv'.bound
      have hm' : (qs ++ new).length + (g.size - (seen ++ new).length) < f := by
        simp only [List.length_append] at hlen hm ⊢
        simp only [List.length_cons] at hm
        omega
      obtain ⟨h1, h2, h3, h4⟩ := ih (qs ++ new) (seen ++ new) (acc ++ [n])
        inv' hm'
      rw [hres]
      refine ⟨h1, ?_, h3, h4⟩
      intro x hx
      exact h2 x (List.mem_append.mpr (Or.inl hx))

theorem getNodesByType_spec (g : Graph) (root : Nat) (hwf : g.WFb = true)
    (hroot : root < g.size) :
    (getNodesByType g root).Nodup ∧
      (∀ x, x ∈ getNodesByType g root ↔ Reachable g root x) ∧
      (∀ x ∈ getNodesByType g root, x < g.size) ∧
      (∀ a ∈ getNodesByType g root, ∀ c ∈ g.tChildren a,
        c ∈ getNodesByType g root) := by
  have inv : BfsInv g root [root] [root] [] := by
    refine ⟨by simp, by simp, by simp, ?_, by simp, by simpa using hroot⟩
    intro x hx
    simp at hx
    subst hx
    exact Relation.ReflTransGen.refl
  have hm : ([root] : List Nat).length + (g.size - ([root] : List Nat).length)
      < g.size + 1 := by
    simp; omega
  obtain ⟨h1, h2, h3, h4⟩ := bfsLoop_spec g root hwf (g.size + 1)
    [root] [root] [] inv hm
  have hrootmem : root ∈ getNodesByType g root := h2 root (by simp)
  refine ⟨h1, ?_, fun x hx => (h4 x hx).1, h3⟩
  intro x
  constructor
  · intro hx; exact (h4 x hx).2
  · intro hx
    induction hx with
    | refl => exact hrootmem
    | tail hab hedge ihr =>
      rename_i b c
      have hb := ihr
      have hbsz : b < g.size := (h4 b hb).1
      have htc : c ∈ g.tChildren b := by
        rw [tChildren_eq hwf]
        exact hedge
      exact h3 b hb c htc

/-! ### Properties of get_topological_order (Kahn) -/

theorem remDeg_nonneg (g : Graph) (l : List Nat) (m : Nat) :
    0 ≤ remDeg g l m := Int.natCast_nonneg _

theorem remDeg_nil (g : Graph) (m : Nat) : remDeg g [] m = initIndeg g m := by
  unfold remDeg initIndeg
  simp

theorem remDeg_zero_iff {g : Graph} {l : List Nat} {m : Nat} :
    remDeg g l m = 0 ↔ ∀ c ∈ g.tChildren m, c ∈ l := by
  unfold remDeg
  rw [Int.natCast_eq_zero, List.length_eq_zero, List.filter_eq_nil_iff]
  constructor
  · intro h c hc
    have := h c hc
    simpa using this
  · intro h c hc
    simpa using h c hc

theorem filter_length_split (L : List Nat) (n : Nat) (hnL : n ∉ L) :
    ∀ xs : List Nat,
    (xs.filter fun c => decide (c ∉ L)).length =
      (xs.filter fun c => decide (c ∉ L ++ [n])).length + xs.count n := by
  intro xs
  induction xs with
  | nil => simp
  | cons x rest ih =>
    by_cases hx : x = n
    · subst hx
      have h1 : x ∉ L := hnL
      have h2 : x ∈ L ++ [x] := by simp
      simp only [List.filter_cons, List.count_cons_self]
      rw [if_pos (by simpa using h1), if_neg (by simp)]
      simp only [List.length_cons]
      omega
    · have hmem : (x ∈ L ++ [n]) ↔ x ∈ L := by
        simp [List.mem_append, hx]
      simp only [List.filter_cons, List.count_cons_of_ne (Ne.symm hx)]
      by_cases hxL : x ∈ L
      · rw [if_neg (by simpa using hxL), if_neg (by simp [hmem, hxL])]
        exact ih
      · rw [if_pos (by simpa using hxL), if_pos (by simp [hmem, hxL])]
        simp only [List.length_cons]
        omega

theorem remDeg_append {g : Graph} {l : List Nat} {n : Nat} (hnL : n ∉ l)
    (m : Nat) :
    remDeg g l m = remDeg g (l ++ [n]) m + ((g.tChildren m).count n : Int) := by
  unfold remDeg
  have := filter_length_split l n hnL (g.tChildren m)
  omega

theorem count_le_remDeg {g : Graph} {l : List Nat} {n : Nat} (hnL : n ∉ l)
    (m : Nat) : ((g.tChildren m).count n : Int) ≤ remDeg g l m := by
  have h := remDeg_append (g := g) hnL m
  have h2 := remDeg_nonneg g (l ++ [n]) m
  omega

theorem mem_parentsOf {g : Graph} {nodes : List Nat} {n x : Nat} :
    x ∈ parentsOf g nodes n ↔ x ∈ nodes ∧ n ∈ g.tChildren x := by
  unfold parentsOf
  rw [List.mem_flatMap]
  constructor
  · rintro ⟨m, hm, hx⟩
    rw [List.mem_replicate] at hx
    obtain ⟨hk, rfl⟩ := hx
    refine ⟨hm, ?_⟩
    rw [← List.count_pos_iff]
    omega
  · rintro ⟨hx, hns⟩
    refine ⟨x, hx, ?_⟩
    rw [List.mem_replicate]
    refine ⟨?_, rfl⟩
    rw [← Nat.pos_iff_ne_zero, List.count_pos_iff]
    exact hns

theorem count_parentsOf {g : Graph} {nodes : List Nat} (hnd : nodes.Nodup)
    (n m : Nat) :
    (parentsOf g nodes n).count m =
      if m ∈ nodes then (g.tChildren m).count n else 0 := by
  induction nodes with
  | nil => simp [parentsOf]
  | cons a rest ih =>
    have hrest := ih (List.Nodup.of_cons hnd)
    have hstep : parentsOf g (a :: rest) n =
        List.replicate ((g.tChildren a).count n) a ++ parentsOf g rest n := by
      unfold parentsOf
      simp [List.flatMap_cons]
    rw [hstep, List.count_append, List.count_replicate]
    by_cases hma : a = m
    · subst hma
      have hnotin : a ∉ rest := (List.nodup_cons.mp hnd).1
      rw [hrest, if_neg hnotin, if_pos (by simp)]
      simp
    · rw [if_neg (by simpa using hma), hrest]
      by_cases hmr : m ∈ rest
      · rw [if_pos hmr, if_pos (by simp [hmr])]
        omega
      · rw [if_neg hmr, if_neg (by simp [hmr, Ne.symm hma])]

theorem processParents_fst : ∀ (ps : List Nat) (indeg : Nat → Int)
    (s : List Nat) (m : Nat),
    (processParents indeg ps s).1 m = indeg m - (ps.count m : Int) := by
  intro ps
  induction ps with
  | nil => intro indeg s m; simp [processParents]
  | cons p rest ih =>
    intro indeg s m
    rw [processParents]
    rw [ih]
    by_cases hmp : m = p
    · subst hmp
      rw [if_pos rfl, List.count_cons_self]
      push_cast
      ring
    · rw [if_neg hmp, List.count_cons_of_ne hmp]

theorem processParents_snd : ∀ (ps : List Nat) (indeg : Nat → Int)
    (s : List Nat),
    ∃ ext, (processParents indeg ps s).2 = s ++ ext ∧ ext.Nodup ∧
      ∀ m, m ∈ ext ↔ (1 ≤ indeg m ∧ indeg m ≤ (ps.count m : Int)) := by
  intro ps
  induction ps with
  | nil =>
    intro indeg s
    refine ⟨[], by simp [processParents], List.nodup_nil, ?_⟩
    intro m
    simp only [List.not_mem_nil, List.count_nil, false_iff]
    omega
  | cons p rest ih =>
    intro indeg s
    rw [processParents]
    by_cases hd : indeg p - 1 = 0
    · rw [if_pos hd]
      obtain ⟨ext, heq, hnd, hchar⟩ :=
        ih (fun x => if x = p then indeg p - 1 else indeg x) (s ++ [p])
      have hpext : p ∉ ext := by
        intro hp
        have := (hchar p).mp hp
        rw [if_pos rfl] at this
        omega
      refine ⟨p :: ext, by simpa using heq, List.nodup_cons.mpr ⟨hpext, hnd⟩, ?_⟩
      intro m
      by_cases hmp : m = p
      · rw [hmp]
        simp only [List.mem_cons, true_or, true_iff]
        have hc : (((p :: rest).count p : Nat) : Int) =
            ((rest.count p : Nat) : Int) + 1 := by
          rw [List.count_cons_self]; push_cast; ring
        constructor
        · omega
        · rw [hc]
          have : (0 : Int) ≤ (rest.count p : Int) := Int.natCast_nonneg _
          omega
      · have hme : m ∈ p :: ext ↔ m ∈ ext := by
          simp [List.mem_cons, hmp]
        rw [hme, hchar, if_neg hmp, List.count_cons_of_ne hmp]
    · rw [if_neg hd]
      obtain ⟨ext, heq, hnd, hchar⟩ :=
        ih (fun x => if x = p then indeg p - 1 else indeg x) s
      refine ⟨ext, heq, hnd, ?_⟩
      intro m
      by_cases hmp : m = p
      · subst hmp
        rw [hchar, if_pos rfl, List.count_cons_self]
        push_cast
        omega
      · rw [hchar, if_neg hmp, List.count_cons_of_ne hmp]

theorem remDeg_zero_of_mem_l {g : Graph} {nodes s l : List Nat}
    {indeg : Nat → Int} (inv : KahnInv g nodes s l indeg) {m : Nat}
    (hm : m ∈ l) : remDeg g l m = 0 := by
  rw [remDeg_zero_iff]
  intro c hc
  exact (inv.order m hm c hc).1

theorem kahn_step (g : Graph) (nodes : List Nat) (hnodesnd : nodes.Nodup)
    {s' l : List Nat} {indeg : Nat → Int} {n : Nat}
    (inv : KahnInv g nodes (n :: s') l indeg) :
    KahnInv g nodes (processParents indeg (parentsOf g nodes n) s').2
      (l ++ [n]) (processParents indeg (parentsOf g nodes n) s').1 := by
  obtain ⟨ext, heq, hnde, hchar⟩ :=
    processParents_snd (parentsOf g nodes n) indeg s'
  have hfst := processParents_fst (parentsOf g nodes n) indeg s'
  have hn_nodes : n ∈ nodes := inv.sub n (by simp)
  have hn_s : n ∈ n :: s' := by simp
  obtain ⟨_, hn_notL, hn_rd⟩ := (inv.sIff n).mp hn_s
  have hnd_ls : ((l ++ [n]) ++ s').Nodup := by
    have h := inv.nd
    rw [show l ++ n :: s' = (l ++ [n]) ++ s' by simp] at h
    exact h
  have hn_nots' : n ∉ s' := by
    have := List.Nodup.of_append_right hnd_ls
    have h2 := List.disjoint_of_nodup_append hnd_ls
    exact fun hn => h2 (by simp) hn
  -- facts about members of ext
  have hext_indeg : ∀ m ∈ ext, 1 ≤ indeg m ∧
      indeg m ≤ ((parentsOf g nodes n).count m : Int) := fun m hm =>
    (hchar m).mp hm
  have hext_nodes : ∀ m ∈ ext, m ∈ nodes := by
    intro m hm
    obtain ⟨h1, h2⟩ := hext_indeg m hm
    have hpos : 0 < (parentsOf g nodes n).count m := by
      by_contra hcon
      push_neg at hcon
      have h0 : (parentsOf g nodes n).count m = 0 := by omega
      rw [h0] at h2
      simp at h2
      omega
    exact (mem_parentsOf.mp (List.count_pos_iff.mp hpos)).1
  have hcount_eq : ∀ m ∈ nodes,
      ((parentsOf g nodes n).count m : Int) =
        ((g.tChildren m).count n : Int) := by
    intro m hm
    rw [count_parentsOf hnodesnd, if_pos hm]
  have hext_rd : ∀ m ∈ ext, 1 ≤ remDeg g l m ∧
      remDeg g l m ≤ ((g.tChildren m).count n : Int) := by
    intro m hm
    obtain ⟨h1, h2⟩ := hext_indeg m hm
    have hmn := hext_nodes m hm
    rw [inv.deg m hmn] at h1 h2
    rw [hcount_eq m hmn] at h2
    exact ⟨h1, h2⟩
  have hext_notl : ∀ m ∈ ext, m ∉ l := by
    intro m hm hml
    have := (hext_rd m hm).1
    have h0 := remDeg_zero_of_mem_l inv hml
    omega
  have hext_nen : ∀ m ∈ ext, m ≠ n := by
    intro m hm hmn
    have h1 := (hext_rd m hm).1
    rw [hmn] at h1
    omega
  have hext_nots' : ∀ m ∈ ext, m ∉ s' := by
    intro m hm hms
    have hms2 : m ∈ n :: s' := by simp [hms]
    obtain ⟨_, _, hrd⟩ := (inv.sIff m).mp hms2
    have := (hext_rd m hm).1
    omega
  have hrd_new : ∀ m, remDeg g (l ++ [n]) m =
      remDeg g l m - ((g.tChildren m).count n : Int) := by
    intro m
    have := remDeg_append (g := g) hn_notL m
    omega
  refine ⟨?_, ?_, ?_, ?_, ?_⟩
  · -- Nodup
    rw [heq, show (l ++ [n]) ++ (s' ++ ext) = ((l ++ [n]) ++ s') ++ ext by
      simp]
    refine List.Nodup.append hnd_ls hnde ?_
    intro x hx hxe
    rcases List.mem_append.mp hx with h | h
    · rcases List.mem_append.mp h with h2 | h2
      · exact hext_notl x hxe h2
      · simp at h2; exact hext_nen x hxe h2
    · exact hext_nots' x hxe h
  · -- subset of nodes
    intro x hx
    rw [heq] at hx
    rcases List.mem_append.mp hx with h | h
    · rcases List.mem_append.mp h with h2 | h2
      · exact inv.sub x (List.mem_append.mpr (Or.inl h2))
      · simp at h2; subst h2; exact hn_nodes
    · rcases List.mem_append.mp h with h2 | h2
      · exact inv.sub x (List.mem_append.mpr (Or.inr (by simp [h2])))
      · exact hext_nodes x h2
  · -- degrees
    intro m hm
    rw [hfst m, hrd_new m, inv.deg m hm, hcount_eq m hm]
  · -- S characterization
    intro m
    rw [heq]
    constructor
    · intro hm
      rcases List.mem_append.mp hm with h | h
      · obtain ⟨h1, h2, h3⟩ := (inv.sIff m).mp (by simp [h])
        have hmn : m ≠ n := fun he => hn_nots' (he ▸ h)
        refine ⟨h1, by simp [h2, hmn], ?_⟩
        rw [hrd_new m]
        have hcle := count_le_remDeg (g := g) hn_notL m
        have hcnn : (0 : Int) ≤ ((g.tChildren m).count n : Int) :=
          Int.natCast_nonneg _
        omega
      · obtain ⟨h1, h2⟩ := hext_rd m h
        refine ⟨hext_nodes m h, ?_, ?_⟩
        · have := hext_notl m h
          have := hext_nen m h
          simp_all
        · rw [hrd_new m]
          have hcle := count_le_remDeg (g := g) hn_notL m
          omega
    · rintro ⟨h1, h2, h3⟩
      have hml : m ∉ l := fun h => h2 (by simp [h])
      have hmn : m ≠ n := fun h => h2 (by simp [h])
      rw [hrd_new m] at h3
      have hcle := count_le_remDeg (g := g) hn_notL m
      by_cases hk : ((g.tChildren m).count n : Int) = 0
      · have hrd0 : remDeg g l m = 0 := by omega
        have : m ∈ n :: s' := (inv.sIff m).mpr ⟨h1, hml, hrd0⟩
        rcases List.mem_cons.mp this with h | h
        · exact absurd h hmn
        · exact List.mem_append.mpr (Or.inl h)
      · refine List.mem_append.mpr (Or.inr ((hchar m).mpr ?_))
        rw [inv.deg m h1, hcount_eq m h1]
        have hcnn : (0 : Int) ≤ ((g.tChildren m).count n : Int) :=
          Int.natCast_nonneg _
        omega
  · -- ordering
    intro m hm c hc
    rcases List.mem_append.mp hm with h | h
    · obtain ⟨hcl, hidx⟩ := inv.order m h c hc
      refine ⟨List.mem_append.mpr (Or.inl hcl), ?_⟩
      rw [List.indexOf_append_of_mem hcl, List.indexOf_append_of_mem h]
      exact hidx
    · simp at h
      subst h
      have hcl : c ∈ l := by
        have := remDeg_zero_iff.mp hn_rd
        exact this c hc
      refine ⟨List.mem_append.mpr (Or.inl hcl), ?_⟩
      rw [List.indexOf_append_of_mem hcl,
        List.indexOf_append_of_not_mem hn_notL]
      have := List.indexOf_lt_length.mpr hcl
      simp
      omega

theorem kahnLoop_out (g : Graph) (nodes : List Nat) (hnodesnd : nodes.Nodup) :
    ∀ (fuel : Nat) (s l : List Nat) (indeg : Nat → Int),
    KahnInv g nodes s l indeg →
    (kahnLoop g nodes fuel s l indeg).Nodup ∧
      (∀ x ∈ kahnLoop g nodes fuel s l indeg, x ∈ nodes) ∧
      (∀ m ∈ kahnLoop g nodes fuel s l indeg, ∀ c ∈ g.tChildren m,
        c ∈ kahnLoop g nodes fuel s l indeg ∧
        (kahnLoop g nodes fuel s l indeg).indexOf c <
          (kahnLoop g nodes fuel s l indeg).indexOf m) := by
  intro fuel
  induction fuel with
  | zero =>
    intro s l indeg inv
    refine ⟨List.Nodup.of_append_left inv.nd, ?_, ?_⟩
    · intro x hx; exact inv.sub x (List.mem_append.mpr (Or.inl hx))
    · exact inv.order
  | succ f ih =>
    intro s l indeg inv
    cases s with
    | nil =>
      refine ⟨List.Nodup.of_append_left inv.nd, ?_, ?_⟩
      · intro x hx; exact inv.sub x (List.mem_append.mpr (Or.inl hx))
      · exact inv.order
    | cons n s' =>
      have hstep := kahn_step g nodes hnodesnd inv
      have hres : kahnLoop g nodes (f + 1) (n :: s') l indeg =
          kahnLoop g nodes f
            (processParents indeg (parentsOf g nodes n) s').2 (l ++ [n])
            (processParents indeg (parentsOf g nodes n) s').1 := rfl
      rw [hres]
      exact ih _ _ _ hstep

theorem getTopologicalOrder_ok (g : Graph) (root : Nat) (hwf : g.WFb = true)
    (hroot : root < g.size) {L : List Nat}
    (h : getTopologicalOrder g root = .ok L) :
    L.Nodup ∧ (∀ x, x ∈ L ↔ Reachable g root x) ∧
      (∀ m ∈ L, ∀ c ∈ g.childrenOf m,
        c ∈ L ∧ L.indexOf c < L.indexOf m) := by
  obtain ⟨hnodesnd, hreach, hbound, hclos⟩ :=
    getNodesByType_spec g root hwf hroot
  have inv : KahnInv g (getNodesByType g root)
      ((getNodesByType g root).filter fun u => initIndeg g u == 0) []
      (initIndeg g) := by
    refine ⟨by simpa using List.Nodup.filter _ hnodesnd, ?_, ?_, ?_, by simp⟩
    · intro x hx
      simp only [List.nil_append] at hx
      exact List.mem_of_mem_filter hx
    · intro m _
      exact (remDeg_nil g m).symm
    · intro m
      rw [List.mem_filter]
      constructor
      · rintro ⟨h1, h2⟩
        refine ⟨h1, by simp, ?_⟩
        rw [remDeg_nil]
        simpa using h2
      · rintro ⟨h1, _, h3⟩
        rw [remDeg_nil] at h3
        exact ⟨h1, by simpa using h3⟩
  obtain ⟨hLnd, hLsub, hLord⟩ := kahnLoop_out g (getNodesByType g root)
    hnodesnd
    (((getNodesByType g root).map fun n => (g.tChildren n).length).sum +
      (getNodesByType g root).length + 1)
    ((getNodesByType g root).filter fun u => initIndeg g u == 0) []
    (initIndeg g) inv
  simp only [getTopologicalOrder] at h
  set K := kahnLoop g (getNodesByType g root)
    (((getNodesByType g root).map fun n => (g.tChildren n).length).sum +
      (getNodesByType g root).length + 1)
    ((getNodesByType g root).filter fun u => initIndeg g u == 0) []
    (initIndeg g) with hK
  by_cases hlen : K.length = (getNodesByType g root).length
  · rw [if_pos hlen, Except.ok.injEq] at h
    subst h
    have hsetEq : ∀ x, x ∈ K ↔ x ∈ getNodesByType g root := by
      have hsub : K.toFinset ⊆ (getNodesByType g root).toFinset := by
        intro x hx
        rw [List.mem_toFinset] at hx ⊢
        exact hLsub x hx
      have hcards : ((getNodesByType g root).toFinset).card ≤
          (K.toFinset).card := by
        rw [List.toFinset_card_of_nodup hLnd,
          List.toFinset_card_of_nodup hnodesnd]
        omega
      have hfeq := Finset.eq_of_subset_of_card_le hsub hcards
      intro x
      rw [← List.mem_toFinset, hfeq, List.mem_toFinset]
    refine ⟨hLnd, ?_, ?_⟩
    · intro x
      rw [hsetEq x]
      exact hreach x
    · intro m hm c hc
      have htc : c ∈ g.tChildren m := by
        rw [tChildren_eq hwf]
        exact hc
      exact hLord m hm c htc
  · rw [if_neg hlen] at h
    exact absurd h (by simp)

theorem getTopologicalOrder_cyclic (g : Graph) (root : Nat)
    (hwf : g.WFb = true) (hroot : root < g.size)
    (hcyc : ∃ n, Reachable g root n ∧
      Relation.TransGen (ChildEdge g) n n) :
    getTopologicalOrder g root = .error .cyclic := by
  rcases hres : getTopologicalOrder g root with e | L
  · -- an error result: the only error the function builds is .cyclic
    simp only [getTopologicalOrder] at hres
    split at hres
    · exact absurd hres (by simp)
    · rw [Except.error.injEq] at hres
      rw [← hres]
  · exfalso
    obtain ⟨hLnd, hLiff, hLord⟩ :=
      getTopologicalOrder_ok g root hwf hroot hres
    obtain ⟨n, hreach, htrans⟩ := hcyc
    have hnL : n ∈ L := (hLiff n).mpr hreach
    have hstep : ∀ a b, Relation.TransGen (ChildEdge g) a b → a ∈ L →
        b ∈ L ∧ L.indexOf b < L.indexOf a := by
      intro a b htg
      induction htg with
      | single hedge =>
        intro ha
        exact hLord a ha _ hedge
      | tail _ hedge iht =>
        intro ha
        obtain ⟨hb, hlt⟩ := iht ha
        obtain ⟨hc, hlt2⟩ := hLord _ hb _ hedge
        exact ⟨hc, by omega⟩
    obtain ⟨_, hlt⟩ := hstep n n htrans hnL
    omega

/-! ### Properties of eval_spn_bottom_up -/

theorem bottomUpResolve_err_eq {H : Type} (ef : NType → Option H) (t : NType)
    {e : EvalErr} (h : bottomUpResolve ef t = .error e) : e = .noHandler := by
  unfold bottomUpResolve at h
  rcases hft : ef t with _ | f <;> rw [hft] at h
  · rcases hfl : ef NType.iLeaf with _ | lf <;> rw [hfl] at h
    · simp at h
      exact h.symm
    · by_cases hl : t.isLeafType = true
      · simp [hl] at h
      · simp [hl] at h
        exact h.symm
  · simp at h

theorem bottomUpResolve_fallback {H : Type} (ef : NType → Option H)
    (t : NType) (lf : H) (hleaf : t.isLeafType = true) (hnone : ef t = none)
    (hl : ef NType.iLeaf = some lf) :
    bottomUpResolve ef t = .ok (lf, true) := by
  unfold bottomUpResolve
  rw [hnone, hl]
  simp [hleaf]

theorem bottomUpResolve_assert {H : Type} (ef : NType → Option H)
    (t : NType) (hleaf : t.isLeafType = false) (hnone : ef t = none) :
    bottomUpResolve ef t = .error .noHandler := by
  unfold bottomUpResolve
  rw [hnone]
  rcases hfl : ef NType.iLeaf with _ | lf
  · rfl
  · simp [hleaf]

theorem evalBUStep_ok_shape {R : Type} (g : Graph)
    (ef : NType → Option (BUHandler R)) (st : List (Nat × R) × List Nat)
    (n : Nat) (hok : (bottomUpResolve ef (g.typeOf n)).isOk = true)
    (hchild : ∀ c ∈ g.childrenOf n, (List.lookup c st.1).isSome = true) :
    ∃ r, evalBUStep g ef st n = .ok (st.1 ++ [(n, r)], st.2 ++ [n]) := by
  rcases hfe : bottomUpResolve ef (g.typeOf n) with e | p
  · rw [hfe] at hok; simp [Except.isOk, Except.toBool] at hok
  · obtain ⟨f, isLf⟩ := p
    by_cases hlf : isLf = true
    · refine ⟨f n none, ?_⟩
      unfold evalBUStep
      rw [hfe, hlf]
      simp
    · obtain ⟨rs, hrs⟩ := mapM_isSome_of_forall
        (fun c => List.lookup c st.1) (g.childrenOf n) hchild
      refine ⟨f n (some rs), ?_⟩
      unfold evalBUStep
      rw [hfe]
      simp only [Bool.not_eq_true] at hlf
      rw [hlf]
      simp only [Bool.false_eq_true, if_false]
      rw [hrs]

theorem evalBU_fold_ok {R : Type} (g : Graph)
    (ef : NType → Option (BUHandler R)) :
    ∀ (suf pre : List Nat) (st : List (Nat × R) × List Nat),
    (∀ x, (List.lookup x st.1).isSome = true ↔ x ∈ pre) →
    st.2 = pre →
    (∀ n ∈ suf, (bottomUpResolve ef (g.typeOf n)).isOk = true) →
    (∀ i (hi : i < suf.length), ∀ c ∈ g.childrenOf (suf.get ⟨i, hi⟩),
      c ∈ pre ∨ ∃ j, ∃ (hj : j < suf.length), j < i ∧ suf.get ⟨j, hj⟩ = c) →
    ∃ m tr, suf.foldlM (evalBUStep g ef) st = .ok (m, tr) ∧
      tr = pre ++ suf ∧
      (∀ x, (List.lookup x m).isSome = true ↔ x ∈ pre ++ suf) := by
  intro suf
  induction suf with
  | nil =>
    intro pre st hkeys hst2 _ _
    exact ⟨st.1, st.2, rfl, by simpa using hst2, by simpa using hkeys⟩
  | cons n rest ih =>
    intro pre st hkeys hst2 hres horder
    have hchild0 : ∀ c ∈ g.childrenOf n, (List.lookup c st.1).isSome = true := by
      intro c hc
      have h0 := horder 0 (by simp) c (by simpa using hc)
      rcases h0 with h | ⟨j, hj, hj0, _⟩
      · exact (hkeys c).mpr h
      · omega
    obtain ⟨r, hstep⟩ := evalBUStep_ok_shape g ef st n
      (hres n (by simp)) hchild0
    have hkeys' : ∀ x, (List.lookup x (st.1 ++ [(n, r)])).isSome = true ↔
        x ∈ pre ++ [n] := by
      intro x
      rw [lookup_append_single_isSome, hkeys]
      simp
    have horder' : ∀ i (hi : i < rest.length),
        ∀ c ∈ g.childrenOf (rest.get ⟨i, hi⟩),
        c ∈ pre ++ [n] ∨
          ∃ j, ∃ (hj : j < rest.length), j < i ∧ rest.get ⟨j, hj⟩ = c := by
      intro i hi c hc
      have h0 := horder (i + 1) (by simp; omega) c (by simpa using hc)
      rcases h0 with h | ⟨j, hj, hji, hget⟩
      · exact Or.inl (by simp [h])
      · cases j with
        | zero =>
          simp at hget
          exact Or.inl (by simp [hget])
        | succ j' =>
          refine Or.inr ⟨j', by simpa using hj, by omega, ?_⟩
          simpa using hget
    obtain ⟨m, tr, heq, htr, hk⟩ := ih (pre ++ [n])
      (st.1 ++ [(n, r)], st.2 ++ [n]) hkeys' (by rw [hst2]) 
      (fun x hx => hres x (by simp [hx])) horder'
    refine ⟨m, tr, ?_, by simpa using htr, ?_⟩
    · rw [List.foldlM_cons, hstep]
      simpa using heq
    · intro x
      rw [hk x]
      simp

theorem evalBU_fold_err {R : Type} (g : Graph)
    (ef : NType → Option (BUHandler R)) :
    ∀ (suf pre : List Nat) (st : List (Nat × R) × List Nat),
    (∀ x, (List.lookup x st.1).isSome = true ↔ x ∈ pre) →
    (∀ i (hi : i < suf.length), ∀ c ∈ g.childrenOf (suf.get ⟨i, hi⟩),
      c ∈ pre ∨ ∃ j, ∃ (hj : j < suf.length), j < i ∧ suf.get ⟨j, hj⟩ = c) →
    (∃ n ∈ suf, ¬(bottomUpResolve ef (g.typeOf n)).isOk = true) →
    suf.foldlM (evalBUStep g ef) st = .error .noHandler := by
  intro suf
  induction suf with
  | nil =>
    intro pre st _ _ hbad
    simp at hbad
  | cons n rest ih =>
    intro pre st hkeys horder hbad
    by_cases hn : (bottomUpResolve ef (g.typeOf n)).isOk = true
    · have hchild0 : ∀ c ∈ g.childrenOf n,
          (List.lookup c st.1).isSome = true := by
        intro c hc
        have h0 := horder 0 (by simp) c (by simpa using hc)
        rcases h0 with h | ⟨j, hj, hj0, _⟩
        · exact (hkeys c).mpr h
        · omega
      obtain ⟨r, hstep⟩ := evalBUStep_ok_shape g ef st n hn hchild0
      have hkeys' : ∀ x, (List.lookup x (st.1 ++ [(n, r)])).isSome = true ↔
          x ∈ pre ++ [n] := by
        intro x
        rw [lookup_append_single_isSome, hkeys]
        simp
      have horder' : ∀ i (hi : i < rest.length),
          ∀ c ∈ g.childrenOf (rest.get ⟨i, hi⟩),
          c ∈ pre ++ [n] ∨
            ∃ j, ∃ (hj : j < rest.length), j < i ∧ rest.get ⟨j, hj⟩ = c := by
        intro i hi c hc
        have h0 := horder (i + 1) (by simp; omega) c (by simpa using hc)
        rcases h0 with h | ⟨j, hj, hji, hget⟩
        · exact Or.inl (by simp [h])
        · cases j with
          | zero =>
            simp at hget
            exact Or.inl (by simp [hget])
          | succ j' =>
            refine Or.inr ⟨j', by simpa using hj, by omega, ?_⟩
            simpa using hget
      have hbad' : ∃ x ∈ rest, ¬(bottomUpResolve ef (g.typeOf x)).isOk = true := by
        obtain ⟨x, hx, hxb⟩ := hbad
        rcases List.mem_cons.mp hx with h | h
        · subst h; exact absurd hn hxb
        · exact ⟨x, h, hxb⟩
      have := ih (pre ++ [n]) (st.1 ++ [(n, r)], st.2 ++ [n]) hkeys'
        horder' hbad'
      rw [List.foldlM_cons, hstep]
      simpa using this
    · rcases hfe : bottomUpResolve ef (g.typeOf n) with e | p
      · have he : e = .noHandler := bottomUpResolve_err_eq ef _ hfe
        subst he
        have hstep : evalBUStep g ef st n = .error .noHandler := by
          unfold evalBUStep
          rw [hfe]
        rw [List.foldlM_cons, hstep]
        rfl
      · rw [hfe] at hn
        simp [Except.isOk, Except.toBool] at hn

theorem order_children_earlier {g : Graph} {root : Nat} (hwf : g.WFb = true)
    (hroot : root < g.size) {L : List Nat}
    (h : getTopologicalOrder g root = .ok L) :
    ∀ i (hi : i < L.length), ∀ c ∈ g.childrenOf (L.get ⟨i, hi⟩),
      ∃ j, ∃ (hj : j < L.length), j < i ∧ L.get ⟨j, hj⟩ = c := by
  obtain ⟨hnd, _, hord⟩ := getTopologicalOrder_ok g root hwf hroot h
  intro i hi c hc
  have hm : L.get ⟨i, hi⟩ ∈ L := List.get_mem L i hi
  obtain ⟨hcL, hidx⟩ := hord _ hm c hc
  have hidxm : L.indexOf (L.get ⟨i, hi⟩) = i := List.get_indexOf hnd ⟨i, hi⟩
  refine ⟨L.indexOf c, List.indexOf_lt_length.mpr hcL, ?_, ?_⟩
  · omega
  · exact List.indexOf_get _

/-- C1: eval_spn_bottom_up evaluates every unique reachable node exactly once
in topological order (shared children once, results reused through the
all_results map), returns the result stored for the root, resolves an
unregistered concrete type through the generic ILeafNode handler when the
node is a leaf, and raises AssertionError when a non-leaf has no handler. -/
theorem spec_c1 {R : Type} (g : Graph) (root : Nat)
    (ef : NType → Option (BUHandler R)) (hwf : g.WFb = true)
    (hroot : root < g.size) {order : List Nat}
    (horder : getTopologicalOrder g root = .ok order) :
    ((∀ n ∈ order, (bottomUpResolve ef (g.typeOf n)).isOk = true) →
      ∃ r m, evalSpnBottomUp g root ef = .ok (r, m, order) ∧
        List.lookup root m = some r) ∧
    ((∃ n ∈ order, ¬(bottomUpResolve ef (g.typeOf n)).isOk = true) →
      evalSpnBottomUp g root ef = .error .noHandler) ∧
    (order.Nodup ∧ ∀ x, x ∈ order ↔ Reachable g root x) ∧
    (∀ t lf, t.isLeafType = true → ef t = none → ef NType.iLeaf = some lf →
      bottomUpResolve ef t = .ok (lf, true)) ∧
    (∀ t, t.isLeafType = false → ef t = none →
      bottomUpResolve ef t = .error .noHandler) := by
  obtain ⟨hnd, hiff, hord⟩ := getTopologicalOrder_ok g root hwf hroot horder
  have hchildidx := order_children_earlier hwf hroot horder
  have hkeys0 : ∀ x, (List.lookup x ([] : List (Nat × R))).isSome = true ↔
      x ∈ ([] : List Nat) := by
    intro x; simp [List.lookup]
  have hidx0 : ∀ i (hi : i < order.length),
      ∀ c ∈ g.childrenOf (order.get ⟨i, hi⟩),
      c ∈ ([] : List Nat) ∨
        ∃ j, ∃ (hj : j < order.length), j < i ∧ order.get ⟨j, hj⟩ = c := by
    intro i hi c hc
    exact Or.inr (hchildidx i hi c hc)
  refine ⟨?_, ?_, ⟨hnd, hiff⟩, ?_, ?_⟩
  · intro hres
    obtain ⟨m, tr, heq, htr, hk⟩ := evalBU_fold_ok g ef order [] ([], [])
      hkeys0 rfl hres hidx0
    have hrootmem : root ∈ order := (hiff root).mpr Relation.ReflTransGen.refl
    have hlook : (List.lookup root m).isSome = true :=
      (hk root).mpr (by simpa using hrootmem)
    obtain ⟨r, hr⟩ := Option.isSome_iff_exists.mp hlook
    refine ⟨r, m, ?_, hr⟩
    simp only [evalSpnBottomUp, horder, heq, hr, htr]
    simp
  · intro hbad
    have hfold := evalBU_fold_err g ef order [] ([], []) hkeys0 hidx0 hbad
    simp only [evalSpnBottomUp, horder, hfold]
  · intro t lf h1 h2 h3
    exact bottomUpResolve_fallback ef t lf h1 h2 h3
  · intro t h1 h2
    exact bottomUpResolve_assert ef t h1 h2

theorem spec_c1_witness :
    ∃ r m, evalSpnBottomUp gDiamond 0 efDiamond = .ok (r, m, [3, 1, 2, 0]) ∧
      List.lookup 0 m = some r := by
  have h := @spec_c1 ℚ gDiamond 0 efDiamond (by decide) (by decide)
    [3, 1, 2, 0] (by rfl)
  exact h.1 (by decide)

/-- C2: get_topological_order lists each unique reachable node exactly once
with every node after all of its children, and fails with the
"Graph is not DAG" assertion instead of returning when the reachable graph
has a cycle. -/
theorem spec_c2 (g : Graph) (root : Nat) (hwf : g.WFb = true)
    (hroot : root < g.size) :
    (∀ L, getTopologicalOrder g root = .ok L →
      L.Nodup ∧ (∀ x, x ∈ L ↔ Reachable g root x) ∧
      ∀ m ∈ L, ∀ c ∈ g.childrenOf m, c ∈ L ∧ L.indexOf c < L.indexOf m) ∧
    ((∃ n, Reachable g root n ∧ Relation.TransGen (ChildEdge g) n n) →
      getTopologicalOrder g root = .error .cyclic) :=
  ⟨fun _ h => getTopologicalOrder_ok g root hwf hroot h,
   fun hcyc => getTopologicalOrder_cyclic g root hwf hroot hcyc⟩

theorem spec_c2_witness :
    ([3, 1, 2, 0] : List Nat).Nodup ∧
      getTopologicalOrder gCyc 0 = .error .cyclic := by
  constructor
  · exact (((spec_c2 gDiamond 0 (by decide) (by decide)).1)
      [3, 1, 2, 0] (by rfl)).1
  · refine (spec_c2 gCyc 0 (by decide) (by decide)).2 ?_
    refine ⟨0, Relation.ReflTransGen.refl, ?_⟩
    have e01 : ChildEdge gCyc 0 1 := by
      show (1 : Nat) ∈ gCyc.childrenOf 0
      decide
    have e10 : ChildEdge gCyc 1 0 := by
      show (0 : Nat) ∈ gCyc.childrenOf 1
      decide
    exact Relation.TransGen.head e01 (Relation.TransGen.single e10)

/-! ### Properties of eval_spn_top_down -/

theorem tdResolve_from_ef {H : Type} (ef : NType → Option H) (t : NType)
    {f : H} (h : tdResolve ef t = .ok f) : ∃ u, ef u = some f := by
  unfold tdResolve at h
  rcases hfl : ef NType.iLeaf with _ | lf <;> rw [hfl] at h
  · rcases hft : ef t with _ | f' <;> rw [hft] at h
    · simp at h
    · simp at h
      exact ⟨t, by rw [hft, h]⟩
  · by_cases hlt : t.isLeafType = true
    · simp [hlt] at h
      exact ⟨NType.iLeaf, by rw [hfl, h]⟩
    · simp [hlt] at h
      rcases hft : ef t with _ | f' <;> rw [hft] at h
      · simp at h
      · simp at h
        exact ⟨t, by rw [hft, h]⟩

theorem lookup_appendMsg_ne {M : Type} (m : List (Nat × List M))
    (c r : Nat) (p : M) (hne : c ≠ r) :
    List.lookup r (appendMsg m c p) = List.lookup r m := by
  induction m with
  | nil =>
    have hbeq : (r == c) = false := by simpa using fun h => hne h.symm
    simp [appendMsg, List.lookup, hbeq]
  | cons h t ih =>
    obtain ⟨k, v⟩ := h
    by_cases hk : k = c
    · subst hk
      have hbeq : (r == k) = false := by simpa using fun h => hne h.symm
      simp [appendMsg, List.lookup, hbeq]
    · by_cases hrk : r = k
      · subst hrk
        simp [appendMsg, hk, List.lookup]
      · have hbeq : (r == k) = false := by simpa using hrk
        simp [appendMsg, hk, List.lookup, hbeq, ih]

theorem foldl_appendMsg_preserve {M : Type} (root : Nat) (v : List M) :
    ∀ (outs : List (Nat × M)) (res : List (Nat × List M)),
    (∀ e ∈ outs, e.1 ≠ root) → List.lookup root res = some v →
    List.lookup root
      (outs.foldl (fun acc cp => appendMsg acc cp.1 cp.2) res) = some v := by
  intro outs
  induction outs with
  | nil => intro res _ h; simpa using h
  | cons a rest ih =>
    intro res hne h
    rw [List.foldl_cons]
    refine ih _ (fun e he => hne e (by simp [he])) ?_
    rw [lookup_appendMsg_ne _ _ _ _ (hne a (by simp))]
    exact h

theorem evalTDNode_root_inv {M : Type} (g : Graph)
    (ef : NType → Option (TDHandler M)) (root : Nat)
    (hh : ∀ u f, ef u = some f → ∀ n ps outs, f n ps = some outs →
      ∀ e ∈ outs, e.1 ≠ root)
    (res : List (Nat × List M)) (n : Nat) (v : List M)
    (hres : List.lookup root res = some v) :
    ∀ res', evalTDNode g ef res n = .ok res' →
      List.lookup root res' = some v := by
  intro res' h
  unfold evalTDNode at h
  rcases hr : tdResolve ef (g.typeOf n) with e | f <;> rw [hr] at h
  · simp at h
  · dsimp only at h
    rcases hlook : List.lookup n res with _ | params <;> rw [hlook] at h
    · simp at h
    · dsimp only at h
      rcases hout : f n params with _ | outs <;> rw [hout] at h
      · simp at h
        rw [← h]
        exact hres
      · by_cases hlf : (g.typeOf n).isLeafType = true
        · simp [hlf] at h
          rw [← h]
          exact hres
        · simp [hlf] at h
          rw [← h]
          obtain ⟨u, hu⟩ := tdResolve_from_ef ef _ hr
          exact foldl_appendMsg_preserve root v outs res
            (hh u f hu n params outs hout) hres

theorem evalTD_layer_inv {M : Type} (g : Graph)
    (ef : NType → Option (TDHandler M)) (root : Nat)
    (hh : ∀ u f, ef u = some f → ∀ n ps outs, f n ps = some outs →
      ∀ e ∈ outs, e.1 ≠ root) (v : List M) :
    ∀ (layer : List Nat) (res : List (Nat × List M)),
    List.lookup root res = some v →
    ∀ res', layer.foldlM (evalTDNode g ef) res = .ok res' →
      List.lookup root res' = some v := by
  intro layer
  induction layer with
  | nil =>
    intro res hres res' h
    have hre : res = res' := Except.ok.inj h
    rw [← hre]
    exact hres
  | cons n rest ih =>
    intro res hres res' h
    rw [List.foldlM_cons] at h
    rcases hstep : evalTDNode g ef res n with e | mid <;> rw [hstep] at h
    · exact Except.noConfusion h
    · have hmid := evalTDNode_root_inv g ef root hh res n v hres mid hstep
      exact ih mid hmid res' h

theorem evalTD_fold_inv {M : Type} (g : Graph)
    (ef : NType → Option (TDHandler M)) (root : Nat)
    (hh : ∀ u f, ef u = some f → ∀ n ps outs, f n ps = some outs →
      ∀ e ∈ outs, e.1 ≠ root) (v : List M) :
    ∀ (layers : List (List Nat)) (res : List (Nat × List M)),
    List.lookup root res = some v →
    ∀ res', layers.foldlM
        (fun acc layer => layer.foldlM (evalTDNode g ef) acc) res =
      .ok res' → List.lookup root res' = some v := by
  intro layers
  induction layers with
  | nil =>
    intro res hres res' h
    have hre : res = res' := Except.ok.inj h
    rw [← hre]
    exact hres
  | cons layer rest ih =>
    intro res hres res' h
    rw [List.foldlM_cons] at h
    rcases hstep : layer.foldlM (evalTDNode g ef) res with e | mid <;>
      rw [hstep] at h
    · exact Except.noConfusion h
    · have hmid := evalTD_layer_inv g ef root hh v layer res hres mid hstep
      exact ih mid hmid res' h

/-- C10: when no handler ever names the root as a child key, the return value
of eval_spn_top_down is exactly the singleton seeded for the root,
[parent_result]; the per-node messages live only in the all_results map. -/
theorem spec_c10 {M : Type} (g : Graph) (root : Nat)
    (ef : NType → Option (TDHandler M)) (pr : M)
    (hh : ∀ u f, ef u = some f → ∀ n ps outs, f n ps = some outs →
      ∀ e ∈ outs, e.1 ≠ root) :
    ∀ l res, evalSpnTopDown g root ef pr = .ok (l, res) →
      l = [pr] ∧ List.lookup root res = some [pr] := by
  intro l res h
  unfold evalSpnTopDown at h
  rcases hlay : getTopologicalOrderLayers g root with e | layers <;>
    rw [hlay] at h
  · exact Except.noConfusion h
  · dsimp only at h
    have hinit : List.lookup root [(root, [pr])] = some [pr] := by
      simp [List.lookup]
    rcases hfold : layers.reverse.foldlM
        (fun acc layer => layer.foldlM (evalTDNode g ef) acc)
        [(root, [pr])] with e | res0 <;> rw [hfold] at h
    · exact Except.noConfusion h
    · dsimp only at h
      have hinv := evalTD_fold_inv g ef root hh [pr] layers.reverse
        [(root, [pr])] hinit res0 hfold
      rw [hinv] at h
      have hpair := Except.ok.inj h
      rw [Prod.mk.injEq] at hpair
      obtain ⟨hl, hres⟩ := hpair
      rw [← hl, ← hres]
      exact ⟨rfl, hinv⟩

theorem spec_c10_witness :
    ([(5 : ℚ)] : List ℚ) = [(5 : ℚ)] ∧
      List.lookup 0 [(0, [(5 : ℚ)]), (1, [(0 : ℚ)])] = some [(5 : ℚ)] := by
  have hh : ∀ u f, efChain u = some f → ∀ n ps outs, f n ps = some outs →
      ∀ e ∈ outs, e.1 ≠ 0 := by
    intro u f hu n ps outs hout e he
    cases u with
    | iSum => simp [efChain] at hu
    | iProd =>
      simp [efChain] at hu
      rw [← hu] at hout
      simp at hout
      rw [← hout] at he
      simp at he
      rw [he]
      decide
    | iLeaf =>
      simp [efChain] at hu
      rw [← hu] at hout
      simp at hout
    | leafClass k => simp [efChain] at hu
  exact spec_c10 gChain 0 efChain (5 : ℚ) hh [(5 : ℚ)]
    [(0, [(5 : ℚ)]), (1, [(0 : ℚ)])] (by rfl)

/-- C9: the top-down dispatcher routes every leaf to the generic ILeafNode
handler even when the leaf's concrete class is registered, whereas the
bottom-up dispatcher picks the concrete handler first. -/
theorem spec_c9 {H : Type} (ef : NType → Option H) (t : NType) (lf f : H)
    (hleaf : t.isLeafType = true) (hl : ef NType.iLeaf = some lf)
    (hf : ef t = some f) :
    tdResolve ef t = .ok lf ∧ bottomUpResolve ef t = .ok (f, true) := by
  constructor
  · unfold tdResolve
    rw [hl]
    simp [hleaf]
  · unfold bottomUpResolve
    rw [hf]
    simp [hleaf]

theorem spec_c9_witness :
    tdResolve efBoth (.leafClass 0) = .ok 1 ∧
      bottomUpResolve efBoth (.leafClass 0) = .ok (2, true) :=
  spec_c9 efBoth (.leafClass 0) 1 2 (by decide) (by rfl) (by rfl)

/-! ### Scope invariants at construction (C7) -/

theorem spec_c7_counterexample :
    gBadProd.typeOf 0 = .iProd ∧ gBadProd.childrenOf 0 = [1, 2] ∧
      gBadProd.scopeOf 1 = [0] ∧ gBadProd.scopeOf 2 = [0] ∧
      (evalSpnBottomUp gBadProd 0 efDiamond).isOk = true := by
  refine ⟨rfl, rfl, rfl, rfl, ?_⟩
  decide

/-- C7 (amended): neither IProductNode.__init__ nor ISumNode.__init__
validates any scope condition; the constructors store their arguments as
given, and graphs violating the scope invariants evaluate without error. -/
theorem spec_c7_amended :
    (∀ (children : NodeTList) (scope : List Int),
      mkIProductNode children scope = NodeT.prod children scope) ∧
    (∀ (children : NodeTList) (scope : List Int) (w : List ℚ),
      mkISumNode children scope (some w) [] = NodeT.sum children scope w) ∧
    (evalSpnBottomUp gBadProd 0 efDiamond).isOk = true ∧
    (evalSpnBottomUp gBadSum 0 efDiamond).isOk = true := by
  refine ⟨fun _ _ => rfl, fun _ _ _ => rfl, by decide, by decide⟩

/-! ### Sum node weights (C5) -/

theorem list_sum_map_div (l : List ℚ) (s : ℚ) :
    (l.map fun x => x / s).sum = l.sum / s := by
  induction l with
  | nil => simp
  | cons a t ih => simp [ih, add_div]

theorem spec_c5_counterexample :
    ((mkISumNode (.cons (.leaf 0 [0]) .nil) [0]
        (some [2, 3]) []).weightsOf.length ≠
      NodeT.childCount
        (mkISumNode (.cons (.leaf 0 [0]) .nil) [0] (some [2, 3]) [])) ∧
    ¬(|(mkISumNode (.cons (.leaf 0 [0]) .nil) [0]
        (some [2, 3]) []).weightsOf.sum - 1| ≤ 1 / 100000) := by
  constructor
  · decide
  · rw [show (mkISumNode (.cons (.leaf 0 [0]) .nil) [0]
        (some [2, 3]) []).weightsOf = [2, 3] from rfl]
    norm_num

/-- C5 (amended): a supplied weights vector is stored unvalidated, so the
invariant holds only for the generated vector: when weights are omitted at
construction (and there is at least one child), the generated vector has one
strictly positive entry per child and sums to exactly 1. -/
theorem spec_c5_amended (children : NodeTList) (scope : List Int)
    (rand : List ℚ) (hne : children ≠ .nil)
    (hlen : rand.length = sumLenChildren children)
    (hpos : ∀ r ∈ rand, 0 ≤ r) :
    ((mkISumNode children scope none rand).weightsOf.length =
      NodeT.childCount (mkISumNode children scope none rand)) ∧
    (∀ x ∈ (mkISumNode children scope none rand).weightsOf, 0 < x) ∧
    (mkISumNode children scope none rand).weightsOf.sum = 1 := by
  have hcpos : 0 < children.length := by
    cases children with
    | nil => exact absurd rfl hne
    | cons h t => simp [NodeTList.length]
  have htake : rand.take (sumLenChildren children) = rand := by
    rw [← hlen]
    exact List.take_length rand
  have hwform : (mkISumNode children scope none rand).weightsOf =
      (rand.map fun r => r + 1 / 100000000).map
        fun x => x / ((rand.map fun r => r + 1 / 100000000).sum) := by
    unfold mkISumNode initSumWeights NodeT.weightsOf
    rw [htake]
  have hrne : rand ≠ [] := by
    intro h
    rw [h] at hlen
    unfold sumLenChildren at hlen
    simp at hlen
    omega
  have hwpos : ∀ x ∈ rand.map fun r => r + 1 / 100000000, 0 < x := by
    intro x hx
    rw [List.mem_map] at hx
    obtain ⟨r, hr, rfl⟩ := hx
    have := hpos r hr
    positivity
  have hsumpos : 0 < (rand.map fun r => r + 1 / 100000000).sum := by
    refine List.sum_pos _ hwpos ?_
    simpa using hrne
  refine ⟨?_, ?_, ?_⟩
  · rw [hwform]
    simp only [List.length_map]
    rw [hlen]
    unfold sumLenChildren
    cases children with
    | nil => exact absurd rfl hne
    | cons h t => rfl
  · intro x hx
    rw [hwform, List.mem_map] at hx
    obtain ⟨y, hy, rfl⟩ := hx
    exact div_pos (hwpos y hy) hsumpos
  · rw [hwform, list_sum_map_div]
    exact div_self (ne_of_gt hsumpos)

theorem spec_c5_witness :
    ((mkISumNode (.cons (.leaf 0 [0]) .nil) [0] none
        [1 / 2]).weightsOf.length =
      NodeT.childCount
        (mkISumNode (.cons (.leaf 0 [0]) .nil) [0] none [1 / 2])) ∧
    (∀ x ∈ (mkISumNode (.cons (.leaf 0 [0]) .nil) [0] none
        [1 / 2]).weightsOf, 0 < x) ∧
    (mkISumNode (.cons (.leaf 0 [0]) .nil) [0] none [1 / 2]).weightsOf.sum
      = 1 :=
  spec_c5_amended (.cons (.leaf 0 [0]) .nil) [0] [1 / 2]
    (fun h => NodeTList.noConfusion h) (by rfl)
    (by intro r hr; rw [List.mem_singleton] at hr; rw [hr]; norm_num)

/-! ### Hypergeometric adapter (C8) -/

/-- C8: with all three parameters set, get_scipy_object_parameters returns
exactly the switched mapping M-slot := stored N, n-slot := stored M,
N-slot := stored n; a nulled parameter raises InvalidParametersError naming
that parameter. -/
theorem spec_c8 :
    (∀ a b c : Int, hyperScipyParameters ⟨some a, some b, some c⟩ =
      .ok [("M", a), ("n", b), ("N", c)]) ∧
    (∀ b c, hyperScipyParameters ⟨none, b, c⟩ = .error "N") ∧
    (∀ a c, hyperScipyParameters ⟨some a, none, c⟩ = .error "M") ∧
    (∀ a b, hyperScipyParameters ⟨some a, some b, none⟩ = .error "n") :=
  ⟨fun _ _ _ => rfl, fun _ _ => rfl, fun _ _ => rfl, fun _ _ => rfl⟩

/-! ### Structural equality (C6) -/

theorem allclose_map_spec (w w' : List ℚ) :
    ((allcloseQ w w').map fun c => c && decide (w.length = w'.length)) =
        some (decide (w.length = w'.length) && closePairs w w') ∨
      (((allcloseQ w w').map fun c => c && decide (w.length = w'.length))
          = none ∧
        (decide (w.length = w'.length) && closePairs w w') = false) := by
  unfold allcloseQ
  by_cases hlen : w.length = w'.length
  · left
    rw [if_pos hlen]
    simp [closePairs, hlen]
  · rw [if_neg hlen]
    by_cases h1 : w.length = 1
    · left
      rw [if_pos h1]
      simp [hlen]
    · rw [if_neg h1]
      by_cases h2 : w'.length = 1
      · left
        rw [if_pos h2]
        simp [hlen]
      · right
        rw [if_neg h2]
        simp [hlen]

theorem equalsT_spec_aux : ∀ N : Nat,
    (∀ a b : NodeT, sizeOf a < N →
      (equalsT a b = some (specEquals a b) ∨
        (equalsT a b = none ∧ specEquals a b = false))) ∧
    (∀ xs ys : NodeTList, sizeOf xs < N →
      (equalsChildren xs ys = some (specEqChildren xs ys) ∨
        (equalsChildren xs ys = none ∧ specEqChildren xs ys = false))) := by
  intro N
  induction N with
  | zero =>
    constructor
    · intro a b h; omega
    · intro xs ys h; omega
  | succ n ih =>
    obtain ⟨ihP, ihQ⟩ := ih
    constructor
    · intro a b hsz
      cases a with
      | prod cs sc =>
        have hcs : sizeOf cs < n := by
          simp only [NodeT.prod.sizeOf_spec] at hsz
          omega
        cases b with
        | prod cs' sc' =>
          by_cases hsc : sc = sc'
          · rcases ihQ cs cs' hcs with hq | ⟨hq1, hq2⟩
            · left
              simp [equalsT, specEquals, hsc, hq]
            · right
              simp [equalsT, specEquals, hsc, hq1, hq2]
          · left
            simp [equalsT, specEquals, hsc]
        | sum cs' sc' w' => left; simp [equalsT, specEquals]
        | leaf k' sc' => left; simp [equalsT, specEquals]
      | sum cs sc w =>
        have hcs : sizeOf cs < n := by
          simp only [NodeT.sum.sizeOf_spec] at hsz
          omega
        cases b with
        | prod cs' sc' => left; simp [equalsT, specEquals]
        | leaf k' sc' => left; simp [equalsT, specEquals]
        | sum cs' sc' w' =>
          by_cases hsc : sc = sc'
          · rcases ihQ cs cs' hcs with hq | ⟨hq1, hq2⟩
            · by_cases hb : specEqChildren cs cs' = true
              · rcases allclose_map_spec w w' with hac | ⟨hac1, hac2⟩
                · left
                  simp [equalsT, specEquals, hsc, hq, hb, hac]
                · right
                  simp [equalsT, specEquals, hsc, hq, hb, hac1, hac2]
              · left
                rw [Bool.not_eq_true] at hb
                simp [equalsT, specEquals, hsc, hq, hb]
            · right
              simp [equalsT, specEquals, hsc, hq1, hq2]
          · left
            simp [equalsT, specEquals, hsc]
      | leaf k sc =>
        cases b with
        | prod cs' sc' => left; simp [equalsT, specEquals]
        | sum cs' sc' w' => left; simp [equalsT, specEquals]
        | leaf k' sc' => left; simp [equalsT, specEquals]
    · intro xs ys hsz
      cases xs with
      | nil => left; simp [equalsChildren, specEqChildren]
      | cons x xs' =>
        cases ys with
        | nil => left; simp [equalsChildren, specEqChildren]
        | cons y ys' =>
          have hx : sizeOf x < n := by
            simp only [NodeTList.cons.sizeOf_spec] at hsz
            omega
          have hxs : sizeOf xs' < n := by
            simp only [NodeTList.cons.sizeOf_spec] at hsz
            omega
          rcases ihP x y hx with hp | ⟨hp1, hp2⟩
          · by_cases hb : specEquals x y = true
            · rcases ihQ xs' ys' hxs with hq | ⟨hq1, hq2⟩
              · left
                simp [equalsChildren, specEqChildren, hp, hb, hq]
              · right
                simp [equalsChildren, specEqChildren, hp, hb, hq1, hq2]
            · left
              rw [Bool.not_eq_true] at hb
              simp [equalsChildren, specEqChildren, hp, hb]
          · right
            simp [equalsChildren, specEqChildren, hp1, hp2]

theorem spec_c6_counterexample :
    equalsT (NodeT.prod (.cons (.leaf 0 [0]) .nil) [0, 1])
        (NodeT.prod (.cons (.leaf 0 [0]) (.cons (.leaf 0 [5]) .nil)) [0, 1])
      = some true ∧
    NodeT.childCount (NodeT.prod (.cons (.leaf 0 [0]) .nil) [0, 1]) ≠
      NodeT.childCount
        (NodeT.prod (.cons (.leaf 0 [0]) (.cons (.leaf 0 [5]) .nil))
          [0, 1]) := by
  constructor
  · decide
  · decide

/-- C6 (amended): equals returns true exactly for nodes of the same concrete
type with equal scopes whose children are pairwise structurally equal over
the zip truncated to the shorter children list (equal child counts are NOT
required), sum nodes additionally requiring weight vectors of equal length
that are elementwise equal within the numeric tolerance. -/
theorem spec_c6_amended (a b : NodeT) :
    equalsT a b = some true ↔ specEquals a b = true := by
  rcases (equalsT_spec_aux (sizeOf a + 1)).1 a b (by omega) with h | ⟨h1, h2⟩
  · rw [h]
    constructor
    · intro hh
      exact Option.some.inj hh
    · intro hh
      rw [hh]
  · rw [h1, h2]
    simp

/-! ### Gaussian leaf likelihood (C3, C4) -/

theorem node_likelihood_nil (pdf : ℚ → ℚ → ℚ → ℚ) (node : GaussianM) :
    node_likelihood pdf node [] = [] := rfl

theorem node_log_likelihood_nil (logpdf : ℚ → ℚ → ℚ → ℚ)
    (node : GaussianM) : node_log_likelihood logpdf node [] = [] := rfl

theorem node_likelihood_cons (pdf : ℚ → ℚ → ℚ → ℚ) (node : GaussianM)
    (row : List (Option ℚ)) (rest : List (List (Option ℚ))) :
    node_likelihood pdf node (row :: rest) =
      (match row.getD node.scope none with
        | none => 1
        | some x => pdf x node.mean node.stdev) ::
        node_likelihood pdf node rest := by
  unfold node_likelihood
  have hcol : scopeColumn node (row :: rest) =
      row.getD node.scope none :: scopeColumn node rest := rfl
  rw [hcol]
  rcases hc : row.getD node.scope none with _ | x <;>
    simp [maskAssign, List.replicate_succ]

theorem node_log_likelihood_cons (logpdf : ℚ → ℚ → ℚ → ℚ)
    (node : GaussianM) (row : List (Option ℚ))
    (rest : List (List (Option ℚ))) :
    node_log_likelihood logpdf node (row :: rest) =
      (match row.getD node.scope none with
        | none => 0
        | some x => logpdf x node.mean node.stdev) ::
        node_log_likelihood logpdf node rest := by
  unfold node_log_likelihood
  have hcol : scopeColumn node (row :: rest) =
      row.getD node.scope none :: scopeColumn node rest := rfl
  rw [hcol]
  rcases hc : row.getD node.scope none with _ | x <;>
    simp [maskAssign, List.replicate_succ]

/-- C3: for every leaf and data matrix, a row whose scope cell is the
missing marker NaN yields likelihood 1 and log-likelihood 0; a row with an
observed value yields the closed-form density at that value. -/
theorem spec_c3 (pdf logpdf : ℚ → ℚ → ℚ → ℚ) (node : GaussianM)
    (data : List (List (Option ℚ))) (i : Nat) (hi : i < data.length) :
    ((data.get ⟨i, hi⟩).getD node.scope none = none →
      (node_likelihood pdf node data).get? i = some 1 ∧
      (node_log_likelihood logpdf node data).get? i = some 0) ∧
    (∀ x, (data.get ⟨i, hi⟩).getD node.scope none = some x →
      (node_likelihood pdf node data).get? i =
        some (pdf x node.mean node.stdev) ∧
      (node_log_likelihood logpdf node data).get? i =
        some (logpdf x node.mean node.stdev)) := by
  induction data generalizing i with
  | nil => simp at hi
  | cons row rest ih =>
    cases i with
    | zero =>
      rw [node_likelihood_cons, node_log_likelihood_cons]
      constructor
      · intro hc
        simp only [List.get, List.getD_eq_getElem?_getD] at hc
        simp [hc]
      · intro x hc
        simp only [List.get, List.getD_eq_getElem?_getD] at hc
        simp [hc]
    | succ j =>
      have hj : j < rest.length := by
        simp only [List.length_cons] at hi
        omega
      rw [node_likelihood_cons, node_log_likelihood_cons]
      have hget : (row :: rest).get ⟨j + 1, hi⟩ = rest.get ⟨j, hj⟩ := rfl
      rw [hget]
      obtain ⟨ih1, ih2⟩ := ih j hj
      constructor
      · intro hc
        obtain ⟨hl, hll⟩ := ih1 hc
        simp only [List.get?_eq_getElem?] at hl hll
        simp [hl, hll]
      · intro x hc
        obtain ⟨hl, hll⟩ := ih2 x hc
        simp only [List.get?_eq_getElem?] at hl hll
        simp [hl, hll]

theorem spec_c3_witness :
    ((node_likelihood (fun x m s => x + m + s) ⟨0, 0, 1⟩
        [[none], [some 2]]).get? 0 = some 1 ∧
      (node_log_likelihood (fun x m s => x * m * s) ⟨0, 0, 1⟩
        [[none], [some 2]]).get? 0 = some 0) :=
  (spec_c3 (fun x m s => x + m + s) (fun x m s => x * m * s) ⟨0, 0, 1⟩
    [[none], [some 2]] 0 (by simp)).1 rfl

/-- C4: likelihood equals the exponential of log-likelihood: at the RatSpn
interface likelihood is literally np.exp applied to log_likelihood, and at
the Gaussian leaf the two node functions agree row by row whenever the
collaborator densities satisfy pdf = exp after logpdf (with exp 0 = 1 for
the marginalized rows). -/
theorem spec_c4 (expQ : ℚ → ℚ) (pdf logpdf : ℚ → ℚ → ℚ → ℚ)
    (impl : Nat → List (List (Option ℚ)) → List ℚ) (outputNode : Nat)
    (node : GaussianM) (data : List (List (Option ℚ)))
    (hexp0 : expQ 0 = 1)
    (hpdf : ∀ x m s, pdf x m s = expQ (logpdf x m s)) :
    (ratLikelihood expQ impl outputNode data =
      (ratLogLikelihood impl outputNode data).map expQ) ∧
    (node_likelihood pdf node data =
      (node_log_likelihood logpdf node data).map expQ) := by
  refine ⟨rfl, ?_⟩
  induction data with
  | nil => rfl
  | cons row rest ih =>
    rw [node_likelihood_cons, node_log_likelihood_cons, List.map_cons, ih]
    rcases hc : row.getD node.scope none with _ | x
    · simp [hexp0]
    · simp [hpdf]

theorem spec_c4_witness :
    (ratLikelihood (fun q => if q = 0 then 1 else 0) (fun _ _ => [0]) 7
        [[none]] =
      (ratLogLikelihood (fun _ _ => [0]) 7 [[none]]).map
        fun q => if q = 0 then 1 else 0) ∧
    (node_likelihood (fun _ _ _ => 1) ⟨0, 0, 1⟩ [[none]] =
      (node_log_likelihood (fun _ _ _ => 0) ⟨0, 0, 1⟩ [[none]]).map
        fun q => if q = 0 then 1 else 0) :=
  spec_c4 (fun q => if q = 0 then 1 else 0) (fun _ _ _ => 1)
    (fun _ _ _ => 0) (fun _ _ => [0]) 7 ⟨0, 0, 1⟩ [[none]]
    (by norm_num) (fun x m s => by norm_num)

end SPFlow
